import Mathlib

/-!
Verification development for the Patmos single-path predicate register
allocator (`RAInfo.cpp`) and the single-path reducer
(`SinglePath/PatmosSPReduce.cpp`).

The C++ sources are shallowly embedded:

* `std::map<unsigned, T>` becomes an association list `List (Nat × T)` with
  `mapLookup`/`mapSet`/`mapErase`; `mapSet` is an order-preserving
  insert-or-assign (new keys are appended), which preserves all lookup
  semantics of the source.  The only place iteration order of a map is
  observable is the choice of the eviction candidate among ties of the
  furthest-next-use sort, which no theorem below depends on.
* `std::set<Location>` (the free-location set, ordered by the source's
  `operator<`) becomes a `List Location` kept in comparator order by
  `setInsert`; `begin()` is the list head, `erase(begin())` drops the head,
  and inserting an element equivalent under the comparator is a no-op,
  exactly as for `std::set`.  (The source comparator is not a strict weak
  ordering — see the claim about `operator<` below — so this list model
  fixes one consistent behaviour where the C++ container's is undefined.)
* assertion failures, `std::map::at` on a missing key and
  `std::vector::back` on an empty vector make the embedded functions
  return `none`.
-/

/-! ### Association-list maps (model of `std::map<unsigned, T>`) -/

def mapLookup {α : Type} (k : Nat) : List (Nat × α) → Option α
  | [] => none
  | (k₂, v) :: t => if k = k₂ then some v else mapLookup k t

/-- Insert-or-assign: replaces the value at an existing key in place,
appends a fresh key at the end. -/
def mapSet {α : Type} (k : Nat) (v : α) : List (Nat × α) → List (Nat × α)
  | [] => [(k, v)]
  | (k₂, v₂) :: t => if k = k₂ then (k, v) :: t else (k₂, v₂) :: mapSet k v t

/-- `std::map::erase(iterator)`.  Keys of an association list built with
`mapSet` are pairwise distinct, so removing every binding of `k` agrees
with removing the single one the source erases. -/
def mapErase {α : Type} (k : Nat) : List (Nat × α) → List (Nat × α)
  | [] => []
  | (k₂, v₂) :: t => if k = k₂ then mapErase k t else (k₂, v₂) :: mapErase k t

theorem mapLookup_mapSet_self {α : Type} (k : Nat) (v : α) (m : List (Nat × α)) :
    mapLookup k (mapSet k v m) = some v := by
  induction m with
  | nil => simp [mapSet, mapLookup]
  | cons h t ih =>
    obtain ⟨k₂, v₂⟩ := h
    by_cases hk : k = k₂ <;> simp [mapSet, mapLookup, hk, ih]

theorem mapLookup_mapSet_ne {α : Type} {k k₂ : Nat} (v : α) (m : List (Nat × α))
    (h : k ≠ k₂) : mapLookup k (mapSet k₂ v m) = mapLookup k m := by
  induction m with
  | nil => simp [mapSet, mapLookup, h]
  | cons hd t ih =>
    obtain ⟨k₃, v₃⟩ := hd
    by_cases hk : k₂ = k₃
    · subst hk
      simp [mapSet, mapLookup, h]
    · by_cases hk₂ : k = k₃ <;> simp [mapSet, mapLookup, hk, hk₂, ih]

theorem mapLookup_mapErase_self {α : Type} (k : Nat) (m : List (Nat × α)) :
    mapLookup k (mapErase k m) = none := by
  induction m with
  | nil => simp [mapErase, mapLookup]
  | cons hd t ih =>
    obtain ⟨k₂, v₂⟩ := hd
    by_cases hk : k = k₂
    · subst hk; simp [mapErase, ih]
    · simp [mapErase, mapLookup, hk, ih]

theorem mapLookup_mapErase_ne {α : Type} {k k₂ : Nat} (m : List (Nat × α))
    (h : k ≠ k₂) : mapLookup k (mapErase k₂ m) = mapLookup k m := by
  induction m with
  | nil => simp [mapErase]
  | cons hd t ih =>
    obtain ⟨k₃, v₃⟩ := hd
    by_cases hk : k₂ = k₃
    · subst hk
      simp [mapErase, mapLookup, h, ih]
    · by_cases hk₂ : k = k₃ <;> simp [mapErase, mapLookup, hk, hk₂, ih]

theorem mem_mapSet {α : Type} {k : Nat} {v : α} {m : List (Nat × α)} {pr : Nat × α}
    (h : pr ∈ mapSet k v m) : pr = (k, v) ∨ pr ∈ m := by
  induction m with
  | nil => simp only [mapSet, List.mem_singleton] at h; exact Or.inl h
  | cons hd t ih =>
    obtain ⟨k₂, v₂⟩ := hd
    by_cases hk : k = k₂
    · simp only [mapSet, if_pos hk, List.mem_cons] at h
      rcases h with h | h
      · exact Or.inl h
      · exact Or.inr (List.mem_cons_of_mem _ h)
    · simp only [mapSet, if_neg hk, List.mem_cons] at h
      rcases h with h | h
      · exact Or.inr (by simp [h])
      · rcases ih h with h₂ | h₂
        · exact Or.inl h₂
        · exact Or.inr (List.mem_cons_of_mem _ h₂)

theorem mem_mapErase {α : Type} {k : Nat} {m : List (Nat × α)} {pr : Nat × α}
    (h : pr ∈ mapErase k m) : pr ∈ m := by
  induction m with
  | nil => simp only [mapErase] at h; exact absurd h (List.not_mem_nil _)
  | cons hd t ih =>
    obtain ⟨k₂, v₂⟩ := hd
    by_cases hk : k = k₂
    · simp only [mapErase, if_pos hk] at h
      exact List.mem_cons_of_mem _ (ih h)
    · simp only [mapErase, if_neg hk, List.mem_cons] at h
      rcases h with h | h
      · exact by simp [h]
      · exact List.mem_cons_of_mem _ (ih h)

theorem mapLookup_mem {α : Type} {k : Nat} {v : α} :
    ∀ {m : List (Nat × α)}, mapLookup k m = some v → (k, v) ∈ m := by
  intro m
  induction m with
  | nil => intro h; simp [mapLookup] at h
  | cons hd t ih =>
    obtain ⟨k₂, v₂⟩ := hd
    intro h
    by_cases hk : k = k₂
    · subst hk
      simp only [mapLookup, eq_self_iff_true, if_true, Option.some.injEq] at h
      subst h
      simp
    · simp only [mapLookup, if_neg hk] at h
      exact List.mem_cons_of_mem _ (ih h)

/-! ### Locations (`RAInfo.cpp`, class `Location`)

A predicate storage location: a predicate register or a stack spill slot,
with a 0-based index per kind. -/

inductive LocTy where
  | Register : LocTy
  | Stack : LocTy
deriving DecidableEq, Repr

structure Location where
  type : LocTy
  loc : Nat
deriving DecidableEq, Repr

/-- The source's `operator<(const Location&, const Location&)`
(`RAInfo.cpp` lines 161–167): when the two types are equal it compares the
indices, and in every other case it returns `false`. -/
def locLt (l r : Location) : Bool :=
  if l.type = r.type then decide (l.loc < r.loc) else false

/-! ### The free-location set (model of `std::set<Location>` ordered by `locLt`) -/

/-- `std::set` insertion: keep comparator order, drop an element that is
equivalent (neither less) to one already present. -/
def setInsert (x : Location) : List Location → List Location
  | [] => [x]
  | y :: t =>
    if locLt y x then y :: setInsert x t
    else if locLt x y then x :: y :: t
    else y :: t

/-- `std::set::count`: is some element equivalent to `x` present? -/
def setCount (x : Location) (s : List Location) : Bool :=
  s.any (fun y => !locLt x y && !locLt y x)

theorem mem_setInsert {x y : Location} :
    ∀ {s : List Location}, y ∈ setInsert x s → y = x ∨ y ∈ s := by
  intro s
  induction s with
  | nil => intro h; simpa [setInsert] using h
  | cons z t ih =>
    intro h
    by_cases h₁ : locLt z x = true
    · simp only [setInsert, if_pos h₁, List.mem_cons] at h
      rcases h with h | h
      · exact Or.inr (h ▸ List.mem_cons_self _ _)
      · rcases ih h with h₂ | h₂
        · exact Or.inl h₂
        · exact Or.inr (List.mem_cons_of_mem _ h₂)
    · by_cases h₂ : locLt x z = true
      · simp only [setInsert, if_neg h₁, if_pos h₂, List.mem_cons] at h
        rcases h with h | h
        · exact Or.inl h
        · exact Or.inr (List.mem_cons.mpr h)
      · simp only [setInsert, if_neg h₁, if_neg h₂] at h
        exact Or.inr h

theorem self_mem_setInsert (x : Location) :
    ∀ (s : List Location), setCount x s = false → x ∈ setInsert x s := by
  intro s
  induction s with
  | nil => intro _; simp [setInsert]
  | cons z t ih =>
    intro h
    simp only [setCount, List.any_cons, Bool.or_eq_false_iff,
      Bool.and_eq_false_iff] at h
    by_cases h₁ : locLt z x = true
    · simp only [setInsert, if_pos h₁, List.mem_cons]
      exact Or.inr (ih (by simpa [setCount] using h.2))
    · by_cases h₂ : locLt x z = true
      · simp [setInsert, if_neg h₁, if_pos h₂]
      · exfalso
        rcases h.1 with h₃ | h₃
        · simp [h₂] at h₃
        · simp [h₁] at h₃

theorem mem_setInsert_of_mem (x : Location) {y : Location} :
    ∀ {s : List Location}, y ∈ s → y ∈ setInsert x s := by
  intro s
  induction s with
  | nil => intro h; simp at h
  | cons z t ih =>
    intro h
    rcases List.mem_cons.mp h with h | h
    · by_cases h₁ : locLt z x = true
      · simp [setInsert, if_pos h₁, h]
      · by_cases h₂ : locLt x z = true
        · simp [setInsert, if_neg h₁, if_pos h₂, h]
        · simp [setInsert, if_neg h₁, if_neg h₂, h]
    · by_cases h₁ : locLt z x = true
      · simp only [setInsert, if_pos h₁, List.mem_cons]
        exact Or.inr (ih h)
      · by_cases h₂ : locLt x z = true
        · simp only [setInsert, if_neg h₁, if_pos h₂, List.mem_cons]
          exact Or.inr (Or.inr h)
        · simp only [setInsert, if_neg h₁, if_neg h₂, List.mem_cons]
          exact Or.inr h

/-! ### Live ranges (`RAInfo.cpp`, class `LiveRange`)

`size` is the number of blocks in the scope plus one (the constructor's
`range++`); `uses`/`defs` record the positions set in the two bit vectors. -/

structure LiveRange where
  size : Nat
  uses : List Nat
  defs : List Nat
deriving DecidableEq, Repr

def LiveRange.isUse (lr : LiveRange) (pos : Nat) : Bool := lr.uses.contains pos

def LiveRange.isDef (lr : LiveRange) (pos : Nat) : Bool := lr.defs.contains pos

/-- `LiveRange::lastUse`: no use at any position strictly after `pos`
(up to the bit-vector size). -/
def LiveRange.lastUse (lr : LiveRange) (pos : Nat) : Bool :=
  (List.range lr.size).all (fun i => decide (i ≤ pos) || !lr.uses.contains i)

/-- `LiveRange::hasDefBefore`: a definition at some position strictly
before `pos`. -/
def LiveRange.hasDefBefore (lr : LiveRange) (pos : Nat) : Bool :=
  (List.range pos).any (fun i => lr.defs.contains i)

/-- `LiveRange::anyUseBefore`: a use at some position before or at `pos`. -/
def LiveRange.anyUseBefore (lr : LiveRange) (pos : Nat) : Bool :=
  (List.range (pos + 1)).any (fun i => lr.uses.contains i)

/-- Loop body of `LiveRange::hasNextUseBefore`, scanning positions from `i`
while `fuel` lasts: the other range's use breaks the scan, this range's use
returns true. -/
def hasNextUseBeforeGo (lr other : LiveRange) : Nat → Nat → Bool
  | 0, _ => false
  | fuel + 1, i =>
    if other.uses.contains i then false
    else if lr.uses.contains i then true
    else hasNextUseBeforeGo lr other fuel (i + 1)

/-- `LiveRange::hasNextUseBefore`: does this range have a use at or after
`pos` that comes strictly before the other range's next use? -/
def LiveRange.hasNextUseBefore (lr : LiveRange) (pos : Nat) (other : LiveRange) : Bool :=
  hasNextUseBeforeGo lr other (lr.size - pos) pos

/-! ### Scopes and predicated blocks (interface consumed by `RAInfo`)

A `PredicatedBlock` records the block's machine-basic-block number, its
block predicates (`getBlockPredicates`) and the predicates defined on its
outgoing edges (`getDefinitions`, of which only the `predicate` field is
read by the allocator).  A `ScopeData` is the scope as the allocator sees
it: the blocks in topological order with the header first
(`getBlocksTopoOrd`), and the `isTopLevel`/`isRootTopLevel` flags. -/

structure PredicatedBlock where
  mbb : Nat
  preds : List Nat
  defs : List Nat
deriving DecidableEq, Repr

structure ScopeData where
  blocks : List PredicatedBlock
  isTopLevel : Bool
  isRootTopLevel : Bool
deriving DecidableEq, Repr

/-- `Scope->getHeader()`: the first block of the topological order. -/
def ScopeData.headerBlock (s : ScopeData) : Option PredicatedBlock := s.blocks.head?

/-- `Impl::getHeaderPred()`: the first predicate of the header's
block-predicate set. -/
def ScopeData.headerPred (s : ScopeData) : Option Nat :=
  s.headerBlock.bind (fun b => b.preds.head?)

/-- `Scope->isHeader(block)`: block identity is its MBB number. -/
def ScopeData.isHeader (s : ScopeData) (b : PredicatedBlock) : Bool :=
  s.headerBlock.map (·.mbb) = some b.mbb

/-! ### Live-range construction (`RAInfo::Impl::createLiveRanges`) -/

/-- A fresh `LiveRange(numBlocks)`: the constructor adds one extra position. -/
def emptyLR (numBlocks : Nat) : LiveRange := ⟨numBlocks + 1, [], []⟩

/-- `getOrCreateLRFor(pred)->addUse(pos)`. -/
def lrAddUse (numBlocks pred pos : Nat) (m : List (Nat × LiveRange)) :
    List (Nat × LiveRange) :=
  match mapLookup pred m with
  | some lr => mapSet pred { lr with uses := pos :: lr.uses } m
  | none => mapSet pred { emptyLR numBlocks with uses := [pos] } m

/-- `getOrCreateLRFor(pred)->addDef(pos)`. -/
def lrAddDef (numBlocks pred pos : Nat) (m : List (Nat × LiveRange)) :
    List (Nat × LiveRange) :=
  match mapLookup pred m with
  | some lr => mapSet pred { lr with defs := pos :: lr.defs } m
  | none => mapSet pred { emptyLR numBlocks with defs := [pos] } m

/-- Per-block body of the first loop of `createLiveRanges`: record a use for
each block predicate and a def for each edge definition, at the block's
position `i`. -/
def lrBlockStep (numBlocks : Nat) (m : List (Nat × LiveRange))
    (ib : Nat × PredicatedBlock) : List (Nat × LiveRange) :=
  let m₂ := ib.2.preds.foldl (fun acc p => lrAddUse numBlocks p ib.1 acc) m
  ib.2.defs.foldl (fun acc p => lrAddDef numBlocks p ib.1 acc) m₂

/-- `RAInfo::Impl::createLiveRanges`: uses and defs at every block position,
then — only for a non-top-level scope — a synthetic use of every header
predicate at the sentinel position `blocks.length`. -/
def createLiveRanges (s : ScopeData) : List (Nat × LiveRange) :=
  let numBlocks := s.blocks.length
  let m := s.blocks.enum.foldl (lrBlockStep numBlocks) []
  if s.isTopLevel then m
  else
    match s.headerBlock with
    | none => m
    | some hdr => hdr.preds.foldl (fun acc p => lrAddUse numBlocks p numBlocks acc) m

/-! ### The location-assignment scan (`RAInfo::Impl::assignLocations`)

`ScanState` collects the mutable fields of `RAInfo::Impl` used during the
scan together with the scan-local `FreeLocs` set and `curLocs` map.
`UseLocR` is `Impl::UseLoc`. -/

structure UseLocR where
  loc : Nat
  load : Bool × Nat
  spill : Bool × Nat
deriving DecidableEq, Repr

structure ScanState where
  freeLocs : List Location
  curLocs : List (Nat × Location)
  defLocs : List (Nat × Location)
  numLocs : Nat
  lrs : List (Nat × LiveRange)
  useLocs : List (Nat × List (Nat × UseLocR))
deriving DecidableEq, Repr

/-- `RAInfo::Impl::getAvailLoc`: pop the first free location, or create a
fresh one — a register while `NumLocs < MaxRegs`, a stack slot after. -/
def getAvailLoc (maxRegs : Nat) (st : ScanState) : Location × ScanState :=
  match st.freeLocs with
  | l :: rest => (l, { st with freeLocs := rest })
  | [] =>
    let oldNumLocs := st.numLocs
    (if oldNumLocs < maxRegs then ⟨LocTy.Register, oldNumLocs⟩
     else ⟨LocTy.Stack, oldNumLocs - maxRegs⟩,
     { st with numLocs := oldNumLocs + 1 })

/-- `RAInfo::Impl::hasFreeRegister`: the first free location is a register,
or the register budget is not exhausted. -/
def hasFreeRegister (maxRegs : Nat) (st : ScanState) : Bool :=
  (match st.freeLocs with
   | l :: _ => decide (l.type = LocTy.Register)
   | [] => false)
  || decide (st.numLocs < maxRegs)

/-- The comparator of `sortFurthestNextUse`:
`LRs.at(a).hasNextUseBefore(pos, LRs.at(b))`. -/
def fnuBefore (lrs : List (Nat × LiveRange)) (pos a b : Nat) : Bool :=
  ((mapLookup a lrs).getD (emptyLR 0)).hasNextUseBefore pos
    ((mapLookup b lrs).getD (emptyLR 0))

def insSorted (lt : Nat → Nat → Bool) (x : Nat) : List Nat → List Nat
  | [] => [x]
  | y :: t => if lt x y then x :: y :: t else y :: insSorted lt x t

/-- `RAInfo::Impl::sortFurthestNextUse`, as an insertion sort with the
source's comparator (`std::sort` leaves the order of equivalent elements
unspecified; no theorem below depends on the tie order).  The nearest next
use ends up in front, the furthest at the back. -/
def sortFurthestNextUse (lrs : List (Nat × LiveRange)) (pos : Nat)
    (order : List Nat) : List Nat :=
  order.foldl (fun acc p => insSorted (fnuBefore lrs pos) p acc) []

/-- `RAInfo::Impl::handleIfNotInRegister`: the predicate's current location
is the stack slot `stackLoc`; either take a free register, or evict the
register-resident predicate with the furthest next use, spilling it to a
newly allocated stack slot (or, if it was never used yet, redirecting its
initial definition there).  Returns the `UseLoc` for the requesting
predicate and its new current `Location`. -/
def handleIfNotInRegister (maxRegs blockIndex : Nat) (st : ScanState)
    (stackLoc : Nat) : Option (UseLocR × Location × ScanState) :=
  if hasFreeRegister maxRegs st then
    let avail := getAvailLoc maxRegs st
    let ul : UseLocR := ⟨avail.1.loc, (true, stackLoc), (false, 0)⟩
    if ul.loc ≤ maxRegs then some (ul, avail.1, avail.2) else none
  else
    let order := st.lrs.filterMap (fun pl =>
      match mapLookup pl.1 st.curLocs with
      | some l => if l.type = LocTy.Register then some pl.1 else none
      | none => none)
    let order := sortFurthestNextUse st.lrs blockIndex order
    match order.getLast? with
    | none => none
    | some furthestPred =>
      let avail := getAvailLoc maxRegs st
      let newStackLoc := avail.1
      let st := avail.2
      if newStackLoc.type = LocTy.Stack then
        match mapLookup furthestPred st.curLocs, mapLookup furthestPred st.lrs with
        | some furthestLoc, some lrF =>
          let ul : UseLocR := ⟨furthestLoc.loc, (true, stackLoc), (false, 0)⟩
          if lrF.anyUseBefore blockIndex then
            -- the evicted predicate has been used: spill it after this use
            let ul₂ : UseLocR := ⟨ul.loc, ul.load, (true, newStackLoc.loc)⟩
            if furthestLoc.type = LocTy.Register then
              some (ul₂, furthestLoc,
                { st with curLocs := mapSet furthestPred newStackLoc st.curLocs })
            else none
          else if (mapLookup furthestPred st.defLocs).isSome then
            -- not used yet: redirect its initial definition location
            let st := { st with defLocs := mapSet furthestPred newStackLoc st.defLocs }
            if furthestLoc.type = LocTy.Register then
              some (ul, furthestLoc,
                { st with curLocs := mapSet furthestPred newStackLoc st.curLocs })
            else none
          else none
        | _, _ => none
      else none

/-- `RAInfo::Impl::calculateHeaderUseLoc`: get a location for the header
predicate, record it as definition and current location; the Use location
index is asserted to be 0. -/
def calculateHeaderUseLoc (maxRegs : Nat) (s : ScopeData) (st : ScanState) :
    Option (UseLocR × ScanState) :=
  let avail := getAvailLoc maxRegs st
  let l := avail.1
  let st := avail.2
  let ul : UseLocR := ⟨l.loc, (false, 0), (false, 0)⟩
  match s.headerPred with
  | none => none
  | some headerPred =>
    if (s.headerBlock.map (·.preds.length)) = some 1 then
      if (mapLookup headerPred st.defLocs).isNone then
        let st := { st with defLocs := mapSet headerPred l st.defLocs,
                            curLocs := mapSet headerPred l st.curLocs }
        if ul.loc = 0 then some (ul, st) else none
      else none
    else none

/-- `RAInfo::Impl::calculateNotHeaderUseLoc`: a use of `usePred` at a
non-header block; if its current location is on the stack, move it (back)
into a register via `handleIfNotInRegister`. -/
def calculateNotHeaderUseLoc (maxRegs blockIndex usePred : Nat) (st : ScanState) :
    Option (UseLocR × ScanState) :=
  match mapLookup usePred st.curLocs with
  | none => none
  | some curUseLoc =>
    if curUseLoc.type = LocTy.Stack then
      match handleIfNotInRegister maxRegs blockIndex st curUseLoc.loc with
      | none => none
      | some (ul, newLoc, st) =>
        some (ul, { st with curLocs := mapSet usePred newLoc st.curLocs })
    else
      some (⟨curUseLoc.loc, (false, 0), (false, 0)⟩, st)

/-- Is this use of `usePred` the root top-level header predicate, which
needs no location (it is `p0`)? -/
def rootHeaderExempt (s : ScopeData) (usePred : Nat) : Bool :=
  decide (s.headerPred = some usePred) && s.isRootTopLevel

/-- One iteration of the first (use) loop of
`RAInfo::Impl::handlePredUse`: compute and record the `UseLoc` of one
block predicate. -/
def handleOneUse (maxRegs : Nat) (s : ScopeData) (i : Nat)
    (block : PredicatedBlock) (st : ScanState) (usePred : Nat) :
    Option ScanState :=
  if rootHeaderExempt s usePred then some st
  else
    if s.isHeader block || decide (0 < i) then
      let mbbMap := (mapLookup block.mbb st.useLocs).getD []
      if (mapLookup usePred mbbMap).isNone then
        match
          (if s.isHeader block then calculateHeaderUseLoc maxRegs s st
           else calculateNotHeaderUseLoc maxRegs i usePred st) with
        | none => none
        | some (ul, st) =>
          let mbbMap := (mapLookup block.mbb st.useLocs).getD []
          if (mapLookup usePred mbbMap).isNone then
            some { st with useLocs := mapSet block.mbb (mapSet usePred ul mbbMap) st.useLocs }
          else none
      else none
    else none

/-- One iteration of the second (retire) loop of
`RAInfo::Impl::handlePredUse`: if this block is the predicate's last use,
move its current location into the free set. -/
def retireOneUse (s : ScopeData) (i : Nat) (block : PredicatedBlock)
    (st : ScanState) (usePred : Nat) : Option ScanState :=
  if rootHeaderExempt s usePred then some st
  else
    if s.isHeader block || decide (0 < i) then
      match mapLookup usePred st.lrs with
      | none => none
      | some lr =>
        if lr.lastUse i then
          match mapLookup usePred st.curLocs with
          | none => none
          | some curUseLoc =>
            if setCount curUseLoc st.freeLocs then none
            else
              some { st with freeLocs := setInsert curUseLoc st.freeLocs,
                             curLocs := mapErase usePred st.curLocs }
        else some st
    else none

/-- The retire loop of `handlePredUse` over all block predicates. -/
def retireUses (s : ScopeData) (i : Nat) (block : PredicatedBlock)
    (st : ScanState) : Option ScanState :=
  block.preds.foldlM (retireOneUse s i block) st

/-- `RAInfo::Impl::handlePredUse`: the use loop followed by the retire
loop. -/
def handlePredUse (maxRegs : Nat) (s : ScopeData) (i : Nat)
    (block : PredicatedBlock) (st : ScanState) : Option ScanState := do
  let st ← block.preds.foldlM (handleOneUse maxRegs s i block) st
  retireUses s i block st

/-- One iteration of the definition loop of `assignLocations`: give `pred`
a fresh available location as both current and definition location. -/
def handleOneDef (maxRegs : Nat) (st : ScanState) (pred : Nat) : ScanState :=
  let avail := getAvailLoc maxRegs st
  { avail.2 with curLocs := mapSet pred avail.1 avail.2.curLocs,
                 defLocs := mapSet pred avail.1 avail.2.defLocs }

/-- Step (3) of `assignLocations` for one block: the predicates defined
here that have no current location get fresh locations in
furthest-next-use order (nearest in front, allocated first). -/
def handleDefs (maxRegs i : Nat) (block : PredicatedBlock) (st : ScanState) :
    ScanState :=
  let order := block.defs.filter (fun p => (mapLookup p st.curLocs).isNone)
  let order := sortFurthestNextUse st.lrs i order
  order.foldl (handleOneDef maxRegs) st

/-- The per-block body of the scan of `assignLocations`. -/
def stepBlock (maxRegs : Nat) (s : ScopeData) (st : ScanState)
    (i : Nat) (block : PredicatedBlock) : Option ScanState := do
  let st ← handlePredUse maxRegs s i block st
  some (handleDefs maxRegs i block st)

/-- The state at the start of `assignLocations` (fields initialised by
`RAInfo::Impl::Impl`, live ranges already created). -/
def initState (s : ScopeData) : ScanState :=
  ⟨[], [], [], 0, createLiveRanges s, []⟩

def scanBlocks (maxRegs : Nat) (s : ScopeData) : Option ScanState :=
  s.blocks.enum.foldlM (fun st ib => stepBlock maxRegs s st ib.1 ib.2) (initState s)

/-- The tail of `assignLocations` for a non-top-level scope: if the header
predicate ends the scan in a location different from its header `UseLoc`,
record a load from that final location (the back-branch reload). -/
def headerFixup (s : ScopeData) (st : ScanState) : Option ScanState :=
  if s.isTopLevel then some st
  else
    match s.headerBlock with
    | none => none
    | some hdr =>
      match mapLookup hdr.mbb st.useLocs with
      | none => none
      | some _ =>
        hdr.preds.foldlM (fun st hp =>
          match mapLookup hdr.mbb st.useLocs with
          | none => none
          | some hm =>
            match mapLookup hp hm, mapLookup hp st.curLocs with
            | some ul, some cur =>
              if ul.loc ≠ cur.loc then
                let hm₂ := mapSet hp { ul with load := (true, cur.loc) } hm
                some { st with useLocs := mapSet hdr.mbb hm₂ st.useLocs }
              else some st
            | _, _ => none) st

/-- `RAInfo::Impl::Impl`: `createLiveRanges` (inside `initState`) followed
by `assignLocations` (the block scan and the header fixup). -/
def runImpl (maxRegs : Nat) (s : ScopeData) : Option ScanState := do
  let st ← scanBlocks maxRegs s
  headerFixup s st

/-! ### The scan invariant

`locOK` bounds a location against the register budget and the location
counter: a register index is below both `MaxRegs` and `NumLocs`; a stack
slot can only exist once `NumLocs` has passed `MaxRegs` (stack slots are
created by `getAvailLoc` only when `NumLocs >= MaxRegs`, and `NumLocs`
never decreases).  `ulOK` additionally records that a `UseLoc` carries a
spill only together with a load.  `stInv` asserts this for everything the
scan holds: it is established by `initState` and preserved by every scan
operation, so it holds at every state the scan ever passes to
`getAvailLoc`. -/

def locOK (maxRegs numLocs : Nat) (l : Location) : Prop :=
  if l.type = LocTy.Register then l.loc < maxRegs ∧ l.loc < numLocs
  else maxRegs < numLocs

def ulOK (maxRegs numLocs : Nat) (ul : UseLocR) : Prop :=
  (ul.loc < maxRegs ∧ ul.loc < numLocs) ∧ (ul.spill.1 = true → ul.load.1 = true)

def stInv (maxRegs : Nat) (st : ScanState) : Prop :=
  (∀ l ∈ st.freeLocs, locOK maxRegs st.numLocs l) ∧
  (∀ pr ∈ st.curLocs, locOK maxRegs st.numLocs pr.2) ∧
  (∀ bm ∈ st.useLocs, ∀ pu ∈ bm.2, ulOK maxRegs st.numLocs pu.2)

theorem locOK_mono {maxRegs n n₂ : Nat} {l : Location} (h : locOK maxRegs n l)
    (hn : n ≤ n₂) : locOK maxRegs n₂ l := by
  unfold locOK at h ⊢
  by_cases ht : l.type = LocTy.Register
  · simp only [if_pos ht] at h ⊢
    exact ⟨h.1, lt_of_lt_of_le h.2 hn⟩
  · simp only [if_neg ht] at h ⊢
    exact lt_of_lt_of_le h hn

theorem ulOK_mono {maxRegs n n₂ : Nat} {ul : UseLocR} (h : ulOK maxRegs n ul)
    (hn : n ≤ n₂) : ulOK maxRegs n₂ ul :=
  ⟨⟨h.1.1, lt_of_lt_of_le h.1.2 hn⟩, h.2⟩

theorem stInv_initState (maxRegs : Nat) (s : ScopeData) :
    stInv maxRegs (initState s) := by
  refine ⟨?_, ?_, ?_⟩ <;> intro x hx <;> simp [initState] at hx

/-- Generic preservation of a predicate through `List.foldlM` in `Option`. -/
theorem foldlM_option_inv {σ α : Type} (P : σ → Prop) (f : σ → α → Option σ)
    (hf : ∀ s a s₂, P s → f s a = some s₂ → P s₂) :
    ∀ (l : List α) (s s₂ : σ), P s → l.foldlM f s = some s₂ → P s₂ := by
  intro l
  induction l with
  | nil =>
    intro s s₂ hs h
    simp only [List.foldlM_nil, Option.pure_def, Option.some.injEq] at h
    exact h ▸ hs
  | cons a t ih =>
    intro s s₂ hs h
    simp only [List.foldlM_cons] at h
    cases hfa : f s a with
    | none => rw [hfa] at h; simp at h
    | some s₁ =>
      rw [hfa] at h
      simp only [Option.bind_eq_bind, Option.some_bind] at h
      exact ih s₁ s₂ (hf s a s₁ hs hfa) h

/-- Generic preservation of a predicate through `List.foldl`. -/
theorem foldl_inv {σ α : Type} (P : σ → Prop) (f : σ → α → σ)
    (hf : ∀ s a, P s → P (f s a)) :
    ∀ (l : List α) (s : σ), P s → P (l.foldl f s) := by
  intro l
  induction l with
  | nil => intro s hs; simpa using hs
  | cons a t ih => intro s hs; exact ih (f s a) (hf s a hs)

theorem getAvailLoc_spec (maxRegs : Nat) (st : ScanState)
    (hInv : stInv maxRegs st) :
    stInv maxRegs (getAvailLoc maxRegs st).2 ∧
    locOK maxRegs (getAvailLoc maxRegs st).2.numLocs (getAvailLoc maxRegs st).1 ∧
    st.numLocs ≤ (getAvailLoc maxRegs st).2.numLocs := by
  obtain ⟨hFree, hCur, hUse⟩ := hInv
  cases hfl : st.freeLocs with
  | cons l rest =>
    have hl : locOK maxRegs st.numLocs l := hFree l (by rw [hfl]; simp)
    refine ⟨⟨?_, ?_, ?_⟩, ?_, ?_⟩ <;>
      simp only [getAvailLoc, hfl]
    · intro x hx
      exact hFree x (by rw [hfl]; exact List.mem_cons_of_mem _ hx)
    · exact hCur
    · exact hUse
    · exact hl
    · exact le_refl _
  | nil =>
    by_cases hlt : st.numLocs < maxRegs
    · refine ⟨⟨?_, ?_, ?_⟩, ?_, ?_⟩ <;>
        simp only [getAvailLoc, hfl, if_pos hlt]
      · intro x hx
        exact locOK_mono (hFree x (by rw [hfl]; exact hx)) (Nat.le_succ _)
      · intro pr hpr
        exact locOK_mono (hCur pr hpr) (Nat.le_succ _)
      · intro bm hbm pu hpu
        exact ulOK_mono (hUse bm hbm pu hpu) (Nat.le_succ _)
      · simp only [locOK, if_pos rfl]
        exact ⟨hlt, Nat.lt_succ_self _⟩
      · exact Nat.le_succ _
    · refine ⟨⟨?_, ?_, ?_⟩, ?_, ?_⟩ <;>
        simp only [getAvailLoc, hfl, if_neg hlt]
      · intro x hx
        exact locOK_mono (hFree x (by rw [hfl]; exact hx)) (Nat.le_succ _)
      · intro pr hpr
        exact locOK_mono (hCur pr hpr) (Nat.le_succ _)
      · intro bm hbm pu hpu
        exact ulOK_mono (hUse bm hbm pu hpu) (Nat.le_succ _)
      · simp only [locOK]
        exact Nat.lt_succ_of_le (Nat.le_of_not_lt hlt)
      · exact Nat.le_succ _

/-- Under the scan invariant, `hasFreeRegister` exactly predicts the kind
of location `getAvailLoc` hands out next. -/
theorem getAvailLoc_dichotomy (maxRegs : Nat) (st : ScanState)
    (hInv : stInv maxRegs st) :
    (hasFreeRegister maxRegs st = true →
      (getAvailLoc maxRegs st).1.type = LocTy.Register) ∧
    (hasFreeRegister maxRegs st = false →
      (getAvailLoc maxRegs st).1.type = LocTy.Stack) := by
  obtain ⟨hFree, _, _⟩ := hInv
  cases hfl : st.freeLocs with
  | cons l rest =>
    have hl : locOK maxRegs st.numLocs l := hFree l (by rw [hfl]; simp)
    constructor
    · intro h
      simp only [hasFreeRegister, hfl, Bool.or_eq_true, decide_eq_true_eq] at h
      simp only [getAvailLoc, hfl]
      rcases h with h | h
      · exact h
      · cases ht : l.type with
        | Register => rfl
        | Stack =>
          exfalso
          simp only [locOK, ht] at hl
          exact absurd h (Nat.not_lt.mpr (le_of_lt hl))
    · intro h
      simp only [hasFreeRegister, hfl, Bool.or_eq_false_iff, decide_eq_false_iff_not] at h
      simp only [getAvailLoc, hfl]
      cases ht : l.type with
      | Register => exact absurd ht h.1
      | Stack => rfl
  | nil =>
    constructor
    · intro h
      simp only [hasFreeRegister, hfl, Bool.false_or, decide_eq_true_eq] at h
      simp only [getAvailLoc, hfl, if_pos h]
    · intro h
      simp only [hasFreeRegister, hfl, Bool.false_or, decide_eq_false_iff_not] at h
      simp only [getAvailLoc, hfl, if_neg h]

theorem getAvailLoc_curLocs (maxRegs : Nat) (st : ScanState) :
    (getAvailLoc maxRegs st).2.curLocs = st.curLocs := by
  cases h : st.freeLocs <;> simp [getAvailLoc, h]

theorem getAvailLoc_lrs (maxRegs : Nat) (st : ScanState) :
    (getAvailLoc maxRegs st).2.lrs = st.lrs := by
  cases h : st.freeLocs <;> simp [getAvailLoc, h]

theorem getAvailLoc_useLocs (maxRegs : Nat) (st : ScanState) :
    (getAvailLoc maxRegs st).2.useLocs = st.useLocs := by
  cases h : st.freeLocs <;> simp [getAvailLoc, h]

theorem getAvailLoc_defLocs (maxRegs : Nat) (st : ScanState) :
    (getAvailLoc maxRegs st).2.defLocs = st.defLocs := by
  cases h : st.freeLocs <;> simp [getAvailLoc, h]

theorem handleIfNotInRegister_spec {maxRegs blockIndex : Nat} {st : ScanState}
    {stackLoc : Nat} {ul : UseLocR} {newLoc : Location} {st₂ : ScanState}
    (hInv : stInv maxRegs st)
    (h : handleIfNotInRegister maxRegs blockIndex st stackLoc = some (ul, newLoc, st₂)) :
    stInv maxRegs st₂ ∧ ulOK maxRegs st₂.numLocs ul ∧
    newLoc.type = LocTy.Register ∧ locOK maxRegs st₂.numLocs newLoc ∧
    ul.load.1 = true := by
  obtain ⟨hA, hOK, hMono⟩ := getAvailLoc_spec maxRegs st hInv
  by_cases hfr : hasFreeRegister maxRegs st = true
  · have hReg := (getAvailLoc_dichotomy maxRegs st hInv).1 hfr
    simp only [handleIfNotInRegister, if_pos hfr] at h
    split at h
    · simp only [Option.some.injEq, Prod.mk.injEq] at h
      obtain ⟨hul, hnl, hst⟩ := h
      subst hul hnl hst
      refine ⟨hA, ?_, hReg, hOK, rfl⟩
      constructor
      · simp only [locOK, if_pos hReg] at hOK
        exact hOK
      · intro hsp
        simp at hsp
    · exact absurd h (by simp)
  · simp only [handleIfNotInRegister, if_neg hfr] at h
    have hStack := (getAvailLoc_dichotomy maxRegs st hInv).2 (by
      exact Bool.not_eq_true _ ▸ (Bool.eq_false_iff.mpr hfr))
    split at h
    · exact absurd h (by simp)
    · rename_i furthestPred hlast
      rw [if_pos hStack] at h
      split at h
      · rename_i furthestLoc lrF hcur hlr
        obtain ⟨_, hCur, _⟩ := hInv
        rw [getAvailLoc_curLocs] at hcur
        have hFloc : locOK maxRegs st.numLocs furthestLoc :=
          hCur _ (mapLookup_mem hcur)
        have hFloc₂ : locOK maxRegs (getAvailLoc maxRegs st).2.numLocs furthestLoc :=
          locOK_mono hFloc hMono
        by_cases hany : lrF.anyUseBefore blockIndex = true
        · rw [if_pos hany] at h
          split at h
          · rename_i hRty
            simp only [Option.some.injEq, Prod.mk.injEq] at h
            obtain ⟨hul, hnl, hst⟩ := h
            subst hul hnl hst
            obtain ⟨hF₂, hC₂, hU₂⟩ := hA
            refine ⟨⟨hF₂, ?_, hU₂⟩, ?_, hRty, hFloc₂, rfl⟩
            · intro pr hpr
              rcases mem_mapSet hpr with hpr | hpr
              · rw [hpr]
                exact hOK
              · exact hC₂ pr hpr
            · refine ⟨?_, fun _ => rfl⟩
              simp only [locOK, if_pos hRty] at hFloc₂
              exact hFloc₂
          · exact absurd h (by simp)
        · rw [if_neg hany] at h
          split at h
          · split at h
            · rename_i hdef hRty
              simp only [Option.some.injEq, Prod.mk.injEq] at h
              obtain ⟨hul, hnl, hst⟩ := h
              subst hul hnl hst
              obtain ⟨hF₂, hC₂, hU₂⟩ := hA
              refine ⟨⟨hF₂, ?_, hU₂⟩, ?_, hRty, hFloc₂, rfl⟩
              · intro pr hpr
                rcases mem_mapSet hpr with hpr | hpr
                · rw [hpr]
                  exact hOK
                · exact hC₂ pr hpr
              · refine ⟨?_, ?_⟩
                · simp only [locOK, if_pos hRty] at hFloc₂
                  exact hFloc₂
                · intro hsp
                  simp at hsp
            · exact absurd h (by simp)
          · exact absurd h (by simp)
      · exact absurd h (by simp)

theorem calculateHeaderUseLoc_spec {maxRegs : Nat} {s : ScopeData} {st : ScanState}
    {ul : UseLocR} {st₂ : ScanState}
    (hmr : 1 ≤ maxRegs) (hInv : stInv maxRegs st)
    (h : calculateHeaderUseLoc maxRegs s st = some (ul, st₂)) :
    stInv maxRegs st₂ ∧ ulOK maxRegs st₂.numLocs ul := by
  obtain ⟨hA, hOK, hMono⟩ := getAvailLoc_spec maxRegs st hInv
  simp only [calculateHeaderUseLoc] at h
  split at h
  · exact absurd h (by simp)
  · rename_i headerPred hhp
    split at h
    · split at h
      · split at h
        · rename_i hone hdl hloc
          simp only [Option.some.injEq, Prod.mk.injEq] at h
          obtain ⟨hul, hst⟩ := h
          subst hul hst
          obtain ⟨hF₂, hC₂, hU₂⟩ := hA
          constructor
          · refine ⟨hF₂, ?_, hU₂⟩
            intro pr hpr
            rcases mem_mapSet hpr with hpr | hpr
            · rw [hpr]
              exact hOK
            · exact hC₂ pr hpr
          · have havail0 : (getAvailLoc maxRegs st).1.loc = 0 := hloc
            refine ⟨⟨?_, ?_⟩, fun hsp => by simp at hsp⟩
            · show (getAvailLoc maxRegs st).1.loc < maxRegs
              rw [havail0]
              exact hmr
            · show (getAvailLoc maxRegs st).1.loc < (getAvailLoc maxRegs st).2.numLocs
              rw [havail0]
              by_cases hty : (getAvailLoc maxRegs st).1.type = LocTy.Register
              · simp only [locOK, if_pos hty] at hOK
                omega
              · simp only [locOK, if_neg hty] at hOK
                omega
        · exact absurd h (by simp)
      · exact absurd h (by simp)
    · exact absurd h (by simp)

theorem calculateNotHeaderUseLoc_spec {maxRegs blockIndex usePred : Nat}
    {st : ScanState} {ul : UseLocR} {st₂ : ScanState}
    (hInv : stInv maxRegs st)
    (h : calculateNotHeaderUseLoc maxRegs blockIndex usePred st = some (ul, st₂)) :
    stInv maxRegs st₂ ∧ ulOK maxRegs st₂.numLocs ul := by
  simp only [calculateNotHeaderUseLoc] at h
  split at h
  · exact absurd h (by simp)
  · rename_i curUseLoc hcur
    split at h
    · split at h
      · exact absurd h (by simp)
      · rename_i hpair hnr
        obtain ⟨ul₂, newLoc, st₃⟩ := hpair
        obtain ⟨hI₃, hul₃, hRty, hOK₃, _⟩ := handleIfNotInRegister_spec hInv hnr
        simp only [Option.some.injEq, Prod.mk.injEq] at h
        obtain ⟨hul, hst⟩ := h
        subst hul hst
        obtain ⟨hF₃, hC₃, hU₃⟩ := hI₃
        constructor
        · refine ⟨hF₃, ?_, hU₃⟩
          intro pr hpr
          rcases mem_mapSet hpr with hpr | hpr
          · rw [hpr]
            exact hOK₃
          · exact hC₃ pr hpr
        · exact hul₃
    · rename_i hty
      simp only [Option.some.injEq, Prod.mk.injEq] at h
      obtain ⟨hul, hst⟩ := h
      subst hul hst
      have hCur := hInv.2.1
      have hc : locOK maxRegs st.numLocs curUseLoc := hCur _ (mapLookup_mem hcur)
      have hRty : curUseLoc.type = LocTy.Register := by
        cases hty₂ : curUseLoc.type with
        | Register => rfl
        | Stack => exact absurd hty₂ hty
      refine ⟨hInv, ?_, fun hsp => by simp at hsp⟩
      simp only [locOK, if_pos hRty] at hc
      exact hc

theorem useLocsGetD_OK {maxRegs : Nat} {st : ScanState} {b : Nat}
    (hU : ∀ bm ∈ st.useLocs, ∀ pu ∈ bm.2, ulOK maxRegs st.numLocs pu.2) :
    ∀ pu ∈ (mapLookup b st.useLocs).getD [], ulOK maxRegs st.numLocs pu.2 := by
  intro pu hpu
  cases hb : mapLookup b st.useLocs with
  | none => rw [hb] at hpu; simp at hpu
  | some m =>
    rw [hb] at hpu
    exact hU _ (mapLookup_mem hb) pu hpu

theorem handleOneUse_inv {maxRegs i usePred : Nat} {s : ScopeData}
    {block : PredicatedBlock} {st st₂ : ScanState}
    (hmr : 1 ≤ maxRegs) (hInv : stInv maxRegs st)
    (h : handleOneUse maxRegs s i block st usePred = some st₂) :
    stInv maxRegs st₂ := by
  simp only [handleOneUse] at h
  split at h
  · simp only [Option.some.injEq] at h
    exact h ▸ hInv
  · split at h
    · split at h
      · split at h
        · exact absurd h (by simp)
        · rename_i ul st₃ hcalc
          have hspec : stInv maxRegs st₃ ∧ ulOK maxRegs st₃.numLocs ul := by
            split at hcalc
            · exact calculateHeaderUseLoc_spec hmr hInv hcalc
            · exact calculateNotHeaderUseLoc_spec hInv hcalc
          obtain ⟨hI₃, hulOK⟩ := hspec
          split at h
          · simp only [Option.some.injEq] at h
            subst h
            obtain ⟨hF₃, hC₃, hU₃⟩ := hI₃
            refine ⟨hF₃, hC₃, ?_⟩
            intro bm hbm pu hpu
            rcases mem_mapSet hbm with hbm | hbm
            · subst hbm
              rcases mem_mapSet hpu with hpu | hpu
              · subst hpu
                exact hulOK
              · exact useLocsGetD_OK hU₃ pu hpu
            · exact hU₃ bm hbm pu hpu
          · exact absurd h (by simp)
      · exact absurd h (by simp)
    · exact absurd h (by simp)

theorem retireOneUse_inv {i usePred maxRegs : Nat} {s : ScopeData}
    {block : PredicatedBlock} {st st₂ : ScanState}
    (hInv : stInv maxRegs st)
    (h : retireOneUse s i block st usePred = some st₂) :
    stInv maxRegs st₂ := by
  simp only [retireOneUse] at h
  split at h
  · simp only [Option.some.injEq] at h
    exact h ▸ hInv
  · split at h
    · split at h
      · exact absurd h (by simp)
      · rename_i lr hlr
        split at h
        · split at h
          · exact absurd h (by simp)
          · rename_i curUseLoc hcur
            split at h
            · exact absurd h (by simp)
            · simp only [Option.some.injEq] at h
              subst h
              obtain ⟨hF, hC, hU⟩ := hInv
              refine ⟨?_, ?_, hU⟩
              · intro l hl
                rcases mem_setInsert hl with hl | hl
                · subst hl
                  exact hC _ (mapLookup_mem hcur)
                · exact hF l hl
              · intro pr hpr
                exact hC pr (mem_mapErase hpr)
        · simp only [Option.some.injEq] at h
          exact h ▸ hInv
    · exact absurd h (by simp)

theorem handlePredUse_inv {maxRegs i : Nat} {s : ScopeData}
    {block : PredicatedBlock} {st st₂ : ScanState}
    (hmr : 1 ≤ maxRegs) (hInv : stInv maxRegs st)
    (h : handlePredUse maxRegs s i block st = some st₂) :
    stInv maxRegs st₂ := by
  simp only [handlePredUse, Option.bind_eq_bind] at h
  cases h₁ : block.preds.foldlM (handleOneUse maxRegs s i block) st with
  | none => rw [h₁] at h; simp at h
  | some st₁ =>
    rw [h₁] at h
    simp only [Option.some_bind] at h
    have hI₁ : stInv maxRegs st₁ :=
      foldlM_option_inv (stInv maxRegs) _
        (fun s₃ a s₄ hs hf => handleOneUse_inv hmr hs hf) _ st st₁ hInv h₁
    exact foldlM_option_inv (stInv maxRegs) _
      (fun s₃ a s₄ hs hf => retireOneUse_inv hs hf) _ st₁ st₂ hI₁ h

theorem handleOneDef_inv {maxRegs : Nat} {st : ScanState} {pred : Nat}
    (hInv : stInv maxRegs st) :
    stInv maxRegs (handleOneDef maxRegs st pred) := by
  obtain ⟨hA, hOK, _⟩ := getAvailLoc_spec maxRegs st hInv
  obtain ⟨hF₂, hC₂, hU₂⟩ := hA
  refine ⟨hF₂, ?_, hU₂⟩
  intro pr hpr
  rcases mem_mapSet hpr with hpr | hpr
  · rw [hpr]
    exact hOK
  · exact hC₂ pr hpr

theorem handleDefs_inv {maxRegs i : Nat} {block : PredicatedBlock}
    {st : ScanState} (hInv : stInv maxRegs st) :
    stInv maxRegs (handleDefs maxRegs i block st) :=
  foldl_inv (stInv maxRegs) _ (fun s₃ a hs => handleOneDef_inv hs) _ st hInv

theorem stepBlock_inv {maxRegs i : Nat} {s : ScopeData}
    {block : PredicatedBlock} {st st₂ : ScanState}
    (hmr : 1 ≤ maxRegs) (hInv : stInv maxRegs st)
    (h : stepBlock maxRegs s st i block = some st₂) :
    stInv maxRegs st₂ := by
  simp only [stepBlock, Option.bind_eq_bind] at h
  cases h₁ : handlePredUse maxRegs s i block st with
  | none => rw [h₁] at h; simp at h
  | some st₁ =>
    rw [h₁] at h
    simp only [Option.some_bind, Option.some.injEq] at h
    subst h
    exact handleDefs_inv (handlePredUse_inv hmr hInv h₁)

theorem scanBlocks_inv {maxRegs : Nat} {s : ScopeData} {st₂ : ScanState}
    (hmr : 1 ≤ maxRegs) (h : scanBlocks maxRegs s = some st₂) :
    stInv maxRegs st₂ :=
  foldlM_option_inv (stInv maxRegs) _
    (fun s₃ a s₄ hs hf => stepBlock_inv hmr hs hf) _ _ st₂
    (stInv_initState maxRegs s) h

theorem headerFixup_inv {maxRegs : Nat} {s : ScopeData} {st st₂ : ScanState}
    (hInv : stInv maxRegs st) (h : headerFixup s st = some st₂) :
    stInv maxRegs st₂ := by
  simp only [headerFixup] at h
  split at h
  · simp only [Option.some.injEq] at h
    exact h ▸ hInv
  · split at h
    · exact absurd h (by simp)
    · rename_i hdr hhdr
      split at h
      · exact absurd h (by simp)
      · refine foldlM_option_inv (stInv maxRegs) _ ?_ _ st st₂ hInv h
        intro s₃ hp s₄ hs₃ hf
        split at hf
        · exact absurd hf (by simp)
        · rename_i hm hhm
          split at hf
          · rename_i ul cur hul hcur
            split at hf
            · simp only [Option.some.injEq] at hf
              subst hf
              obtain ⟨hF₃, hC₃, hU₃⟩ := hs₃
              refine ⟨hF₃, hC₃, ?_⟩
              intro bm hbm pu hpu
              rcases mem_mapSet hbm with hbm | hbm
              · subst hbm
                rcases mem_mapSet hpu with hpu | hpu
                · subst hpu
                  have hold : ulOK maxRegs s₃.numLocs ul :=
                    hU₃ _ (mapLookup_mem hhm) _ (mapLookup_mem hul)
                  exact ⟨hold.1, fun _ => rfl⟩
                · exact hU₃ _ (mapLookup_mem hhm) pu hpu
              · exact hU₃ bm hbm pu hpu
            · simp only [Option.some.injEq] at hf
              exact hf ▸ hs₃
          · exact absurd hf (by simp)

theorem runImpl_inv {maxRegs : Nat} {s : ScopeData} {st₂ : ScanState}
    (hmr : 1 ≤ maxRegs) (h : runImpl maxRegs s = some st₂) :
    stInv maxRegs st₂ := by
  simp only [runImpl, Option.bind_eq_bind] at h
  cases h₁ : scanBlocks maxRegs s with
  | none => rw [h₁] at h; simp at h
  | some st₁ =>
    rw [h₁] at h
    simp only [Option.some_bind] at h
    exact headerFixup_inv (scanBlocks_inv hmr h₁) h

/-! ### Claim C1 -/

/-- Claim C1: in the location-assignment scan — whose states all satisfy
`stInv` (established at `initState`, preserved by every `stepBlock`, and,
via the lemmas above, by each inner operation that reaches `getAvailLoc`) —
whenever a free register exists in the free set or the register budget is
not exhausted (`hasFreeRegister`), the next location handed out by
`getAvailLoc` is a `Register` location; otherwise it is a `Stack` location,
so the `assert(newStackLoc.isStack())` in the eviction path of
`handleIfNotInRegister` never fails, and the location assigned to the
requesting predicate there is always a register. -/
theorem claim1_avail_location_kind (maxRegs : Nat) (s : ScopeData)
    (hmr : 1 ≤ maxRegs) :
    stInv maxRegs (initState s) ∧
    (∀ st i block st₂, stInv maxRegs st →
      stepBlock maxRegs s st i block = some st₂ → stInv maxRegs st₂) ∧
    (∀ st, stInv maxRegs st →
      (hasFreeRegister maxRegs st = true →
        (getAvailLoc maxRegs st).1.type = LocTy.Register) ∧
      (hasFreeRegister maxRegs st = false →
        (getAvailLoc maxRegs st).1.type = LocTy.Stack)) ∧
    (∀ blockIndex st stackLoc ul newLoc st₂, stInv maxRegs st →
      handleIfNotInRegister maxRegs blockIndex st stackLoc = some (ul, newLoc, st₂) →
      newLoc.type = LocTy.Register) :=
  ⟨stInv_initState maxRegs s,
   fun _ _ _ _ hI h => stepBlock_inv hmr hI h,
   fun st hI => getAvailLoc_dichotomy maxRegs st hI,
   fun _ _ _ _ _ _ hI h => (handleIfNotInRegister_spec hI h).2.2.1⟩

def scopeW : ScopeData := ⟨[⟨0, [0], []⟩, ⟨1, [1], []⟩], false, false⟩

theorem claim1_witness :
    1 ≤ 1 ∧ (getAvailLoc 1 (initState scopeW)).1.type = LocTy.Register := by
  have h := claim1_avail_location_kind 1 scopeW (by decide)
  exact ⟨by decide, (h.2.2.1 (initState scopeW) h.1).1 (by decide)⟩

/-! ### Accumulation lemmas for `createLiveRanges` -/

/-- `m₂` extends `m`: every live range of `m` is still present with the
same size and at least the same uses. -/
def lrExtends (m m₂ : List (Nat × LiveRange)) : Prop :=
  ∀ p lr, mapLookup p m = some lr → ∃ lr₂, mapLookup p m₂ = some lr₂ ∧
    lr₂.size = lr.size ∧ ∀ x, lr.uses.contains x = true → lr₂.uses.contains x = true

theorem lrExtends_refl (m : List (Nat × LiveRange)) : lrExtends m m :=
  fun _ lr h => ⟨lr, h, rfl, fun _ hx => hx⟩

theorem lrExtends_trans {m₁ m₂ m₃ : List (Nat × LiveRange)}
    (h₁ : lrExtends m₁ m₂) (h₂ : lrExtends m₂ m₃) : lrExtends m₁ m₃ := by
  intro p lr h
  obtain ⟨lr₂, hl₂, hs₂, hu₂⟩ := h₁ p lr h
  obtain ⟨lr₃, hl₃, hs₃, hu₃⟩ := h₂ p lr₂ hl₂
  exact ⟨lr₃, hl₃, hs₃.trans hs₂, fun x hx => hu₃ x (hu₂ x hx)⟩

theorem lrAddUse_extends (nb q pos : Nat) (m : List (Nat × LiveRange)) :
    lrExtends m (lrAddUse nb q pos m) := by
  intro p lr h
  by_cases hpq : p = q
  · subst hpq
    simp only [lrAddUse, h]
    refine ⟨{ lr with uses := pos :: lr.uses }, mapLookup_mapSet_self _ _ _, rfl, ?_⟩
    intro x hx
    simp only [List.contains_cons, Bool.or_eq_true]
    exact Or.inr hx
  · refine ⟨lr, ?_, rfl, fun _ hx => hx⟩
    unfold lrAddUse
    cases hq : mapLookup q m <;>
      simp only [mapLookup_mapSet_ne _ _ hpq, h]

theorem lrAddDef_extends (nb q pos : Nat) (m : List (Nat × LiveRange)) :
    lrExtends m (lrAddDef nb q pos m) := by
  intro p lr h
  by_cases hpq : p = q
  · subst hpq
    simp only [lrAddDef, h]
    exact ⟨{ lr with defs := pos :: lr.defs }, mapLookup_mapSet_self _ _ _, rfl,
      fun _ hx => hx⟩
  · refine ⟨lr, ?_, rfl, fun _ hx => hx⟩
    unfold lrAddDef
    cases hq : mapLookup q m <;>
      simp only [mapLookup_mapSet_ne _ _ hpq, h]

theorem foldl_lrExtends {α : Type} (f : List (Nat × LiveRange) → α → List (Nat × LiveRange))
    (hf : ∀ m a, lrExtends m (f m a)) :
    ∀ (L : List α) (m : List (Nat × LiveRange)), lrExtends m (L.foldl f m) := by
  intro L
  induction L with
  | nil => intro m; exact lrExtends_refl m
  | cons a t ih =>
    intro m
    exact lrExtends_trans (hf m a) (ih (f m a))

theorem lrBlockStep_extends (nb : Nat) (m : List (Nat × LiveRange))
    (ib : Nat × PredicatedBlock) : lrExtends m (lrBlockStep nb m ib) := by
  unfold lrBlockStep
  exact lrExtends_trans
    (foldl_lrExtends _ (fun m₂ q => lrAddUse_extends nb q ib.1 m₂) ib.2.preds m)
    (foldl_lrExtends _ (fun m₂ q => lrAddDef_extends nb q ib.1 m₂) ib.2.defs _)

theorem lrAddUse_self (nb q pos : Nat) (m : List (Nat × LiveRange)) :
    ∃ lr, mapLookup q (lrAddUse nb q pos m) = some lr ∧
      lr.uses.contains pos = true := by
  unfold lrAddUse
  cases hq : mapLookup q m with
  | some lr =>
    refine ⟨{ lr with uses := pos :: lr.uses }, mapLookup_mapSet_self _ _ _, ?_⟩
    simp [List.contains_cons]
  | none =>
    refine ⟨{ emptyLR nb with uses := [pos] }, mapLookup_mapSet_self _ _ _, ?_⟩
    simp [List.contains_cons]

theorem foldAddUse_use {p : Nat} (nb pos : Nat) :
    ∀ (ps : List Nat) (m : List (Nat × LiveRange)), p ∈ ps →
    ∃ lr, mapLookup p (ps.foldl (fun acc q => lrAddUse nb q pos acc) m) = some lr ∧
      lr.uses.contains pos = true := by
  intro ps
  induction ps with
  | nil => intro m h; simp at h
  | cons q t ih =>
    intro m h
    rcases List.mem_cons.mp h with h | h
    · subst h
      obtain ⟨lr, hl, hc⟩ := lrAddUse_self nb p pos m
      obtain ⟨lr₂, hl₂, _, hu₂⟩ :=
        foldl_lrExtends _ (fun m₂ q₂ => lrAddUse_extends nb q₂ pos m₂) t
          (lrAddUse nb p pos m) p lr hl
      exact ⟨lr₂, by simpa using hl₂, hu₂ pos hc⟩
    · obtain ⟨lr, hl, hc⟩ := ih (lrAddUse nb q pos m) h
      exact ⟨lr, by simpa using hl, hc⟩

theorem lrBlockStep_use {p : Nat} (nb : Nat) (m : List (Nat × LiveRange))
    (ib : Nat × PredicatedBlock) (hp : p ∈ ib.2.preds) :
    ∃ lr, mapLookup p (lrBlockStep nb m ib) = some lr ∧
      lr.uses.contains ib.1 = true := by
  unfold lrBlockStep
  obtain ⟨lr, hl, hc⟩ := foldAddUse_use nb ib.1 ib.2.preds m hp
  obtain ⟨lr₂, hl₂, _, hu₂⟩ :=
    foldl_lrExtends _ (fun m₂ q => lrAddDef_extends nb q ib.1 m₂) ib.2.defs _ p lr hl
  exact ⟨lr₂, hl₂, hu₂ _ hc⟩

theorem blocksFold_use {p j : Nat} {b : PredicatedBlock} (nb : Nat) :
    ∀ (L : List (Nat × PredicatedBlock)) (m : List (Nat × LiveRange)),
    (j, b) ∈ L → p ∈ b.preds →
    ∃ lr, mapLookup p (L.foldl (lrBlockStep nb) m) = some lr ∧
      lr.uses.contains j = true := by
  intro L
  induction L with
  | nil => intro m h _; simp at h
  | cons ib t ih =>
    intro m h hp
    rcases List.mem_cons.mp h with h | h
    · subst h
      obtain ⟨lr, hl, hc⟩ := lrBlockStep_use nb m (j, b) hp
      obtain ⟨lr₂, hl₂, _, hu₂⟩ :=
        foldl_lrExtends (lrBlockStep nb) (lrBlockStep_extends nb) t
          (lrBlockStep nb m (j, b)) p lr hl
      exact ⟨lr₂, by simpa using hl₂, hu₂ _ hc⟩
    · exact ih (lrBlockStep nb m ib) h hp

theorem createLiveRanges_use {s : ScopeData} {j p : Nat} {b : PredicatedBlock}
    (hb : s.blocks[j]? = some b) (hp : p ∈ b.preds) :
    ∃ lr, mapLookup p (createLiveRanges s) = some lr ∧
      lr.uses.contains j = true := by
  have hmem : (j, b) ∈ s.blocks.enum := List.mk_mem_enum_iff_getElem?.mpr hb
  obtain ⟨lr, hl, hc⟩ := blocksFold_use s.blocks.length s.blocks.enum [] hmem hp
  unfold createLiveRanges
  by_cases htop : s.isTopLevel = true
  · rw [if_pos htop]
    exact ⟨lr, hl, hc⟩
  · rw [if_neg htop]
    cases hhdr : s.headerBlock with
    | none => exact ⟨lr, hl, hc⟩
    | some hdr =>
      obtain ⟨lr₂, hl₂, _, hu₂⟩ :=
        foldl_lrExtends _
          (fun m₂ q => lrAddUse_extends s.blocks.length q s.blocks.length m₂)
          hdr.preds _ p lr hl
      exact ⟨lr₂, hl₂, hu₂ _ hc⟩

theorem createLiveRanges_sentinel {s : ScopeData} {hdr : PredicatedBlock} {p : Nat}
    (htop : s.isTopLevel = false) (hhdr : s.headerBlock = some hdr)
    (hp : p ∈ hdr.preds) :
    ∃ lr, mapLookup p (createLiveRanges s) = some lr ∧
      lr.uses.contains s.blocks.length = true := by
  unfold createLiveRanges
  rw [if_neg (by rw [htop]; exact Bool.false_ne_true), hhdr]
  exact foldAddUse_use s.blocks.length s.blocks.length hdr.preds _ hp

/-- All live ranges created by `createLiveRanges` have bit-vector size
`numBlocks + 1`. -/
def lrSizeInv (nb : Nat) (m : List (Nat × LiveRange)) : Prop :=
  ∀ p lr, mapLookup p m = some lr → lr.size = nb + 1

theorem lrAddUse_sizeInv {nb q pos : Nat} {m : List (Nat × LiveRange)}
    (h : lrSizeInv nb m) : lrSizeInv nb (lrAddUse nb q pos m) := by
  intro p lr hl
  unfold lrAddUse at hl
  by_cases hpq : p = q
  · subst hpq
    cases hq : mapLookup p m with
    | some lr₂ =>
      rw [hq, mapLookup_mapSet_self] at hl
      obtain rfl := Option.some.inj hl
      exact h p lr₂ hq
    | none =>
      rw [hq, mapLookup_mapSet_self] at hl
      obtain rfl := Option.some.inj hl
      rfl
  · cases hq : mapLookup q m <;> rw [hq, mapLookup_mapSet_ne _ _ hpq] at hl <;>
      exact h p lr hl

theorem lrAddDef_sizeInv {nb q pos : Nat} {m : List (Nat × LiveRange)}
    (h : lrSizeInv nb m) : lrSizeInv nb (lrAddDef nb q pos m) := by
  intro p lr hl
  unfold lrAddDef at hl
  by_cases hpq : p = q
  · subst hpq
    cases hq : mapLookup p m with
    | some lr₂ =>
      rw [hq, mapLookup_mapSet_self] at hl
      obtain rfl := Option.some.inj hl
      exact h p lr₂ hq
    | none =>
      rw [hq, mapLookup_mapSet_self] at hl
      obtain rfl := Option.some.inj hl
      rfl
  · cases hq : mapLookup q m <;> rw [hq, mapLookup_mapSet_ne _ _ hpq] at hl <;>
      exact h p lr hl

theorem createLiveRanges_size {s : ScopeData} {p : Nat} {lr : LiveRange}
    (h : mapLookup p (createLiveRanges s) = some lr) :
    lr.size = s.blocks.length + 1 := by
  have hfold : ∀ (L : List (Nat × PredicatedBlock)) (m : List (Nat × LiveRange)),
      lrSizeInv s.blocks.length m →
      lrSizeInv s.blocks.length (L.foldl (lrBlockStep s.blocks.length) m) := by
    intro L
    induction L with
    | nil => intro m hm; exact hm
    | cons ib t ih =>
      intro m hm
      refine ih _ ?_
      unfold lrBlockStep
      have h₁ : lrSizeInv s.blocks.length
          (ib.2.preds.foldl (fun acc q => lrAddUse s.blocks.length q ib.1 acc) m) := by
        have : ∀ (ps : List Nat) (m₂ : List (Nat × LiveRange)),
            lrSizeInv s.blocks.length m₂ →
            lrSizeInv s.blocks.length
              (ps.foldl (fun acc q => lrAddUse s.blocks.length q ib.1 acc) m₂) := by
          intro ps
          induction ps with
          | nil => intro m₂ hm₂; exact hm₂
          | cons q t₂ ih₂ => intro m₂ hm₂; exact ih₂ _ (lrAddUse_sizeInv hm₂)
        exact this ib.2.preds m hm
      have : ∀ (ps : List Nat) (m₂ : List (Nat × LiveRange)),
          lrSizeInv s.blocks.length m₂ →
          lrSizeInv s.blocks.length
            (ps.foldl (fun acc q => lrAddDef s.blocks.length q ib.1 acc) m₂) := by
        intro ps
        induction ps with
        | nil => intro m₂ hm₂; exact hm₂
        | cons q t₂ ih₂ => intro m₂ hm₂; exact ih₂ _ (lrAddDef_sizeInv hm₂)
      exact this ib.2.defs _ h₁
  have hbase : lrSizeInv s.blocks.length
      (s.blocks.enum.foldl (lrBlockStep s.blocks.length) []) :=
    hfold s.blocks.enum [] (fun p₂ lr₂ hl₂ => by simp [mapLookup] at hl₂)
  unfold createLiveRanges at h
  by_cases htop : s.isTopLevel = true
  · rw [if_pos htop] at h
    exact hbase p lr h
  · rw [if_neg htop] at h
    cases hhdr : s.headerBlock with
    | none => rw [hhdr] at h; exact hbase p lr h
    | some hdr =>
      rw [hhdr] at h
      have : ∀ (ps : List Nat) (m₂ : List (Nat × LiveRange)),
          lrSizeInv s.blocks.length m₂ →
          lrSizeInv s.blocks.length
            (ps.foldl (fun acc q => lrAddUse s.blocks.length q s.blocks.length acc) m₂) := by
        intro ps
        induction ps with
        | nil => intro m₂ hm₂; exact hm₂
        | cons q t₂ ih₂ => intro m₂ hm₂; exact ih₂ _ (lrAddUse_sizeInv hm₂)
      exact this hdr.preds _ hbase p lr h

/-- `lastUse` really is the last use: no position after `pos` (within the
bit-vector size) is a use. -/
theorem lastUse_no_later {lr : LiveRange} {pos j : Nat}
    (h : lr.lastUse pos = true) (hj : pos < j) (hjs : j < lr.size) :
    lr.uses.contains j = false := by
  unfold LiveRange.lastUse at h
  rw [List.all_eq_true] at h
  have := h j (List.mem_range.mpr hjs)
  simp only [Bool.or_eq_true, decide_eq_true_eq, Bool.not_eq_true'] at this
  rcases this with h₂ | h₂
  · omega
  · exact h₂

/-! ### Claim C4 -/

def scopeTopW : ScopeData := ⟨[⟨0, [5], []⟩], true, true⟩

/-- Claim C4 counterexample: for a top-level scope the claim fails —
predicate 5 is in the header's block-predicate set of the (top-level)
scope `scopeTopW`, the sentinel position is `blocks.length = 1`, yet its
live range records no use there: `createLiveRanges` adds the synthetic
sentinel use only when the scope is not top-level. -/
theorem claim4_counterexample :
    scopeTopW.headerPred = some 5 ∧
    ((mapLookup 5 (createLiveRanges scopeTopW)).map
      (fun lr => lr.uses.contains scopeTopW.blocks.length)) = some false := by
  decide

/-- Claim C4 (amended: for every non-top-level scope): after live-range
construction, each predicate of the scope header's block-predicate set has
a use recorded at the sentinel position `blocks.length`, in addition to a
use at every real block position where a block lists it. -/
theorem claim4_sentinel_use (s : ScopeData) (hdr : PredicatedBlock) (p : Nat)
    (htop : s.isTopLevel = false) (hhdr : s.headerBlock = some hdr)
    (hp : p ∈ hdr.preds) :
    ∃ lr, mapLookup p (createLiveRanges s) = some lr ∧
      lr.uses.contains s.blocks.length = true ∧
      ∀ j b, s.blocks[j]? = some b → p ∈ b.preds → lr.uses.contains j = true := by
  obtain ⟨lr, hl, hc⟩ := createLiveRanges_sentinel htop hhdr hp
  refine ⟨lr, hl, hc, ?_⟩
  intro j b hb hpb
  obtain ⟨lr₂, hl₂, hc₂⟩ := createLiveRanges_use hb hpb
  rw [hl] at hl₂
  obtain rfl := Option.some.inj hl₂
  exact hc₂

theorem claim4_witness :
    scopeW.isTopLevel = false ∧
    (∃ lr, mapLookup 0 (createLiveRanges scopeW) = some lr ∧
      lr.uses.contains scopeW.blocks.length = true ∧
      ∀ j b, scopeW.blocks[j]? = some b → 0 ∈ b.preds →
        lr.uses.contains j = true) :=
  ⟨by decide,
   claim4_sentinel_use scopeW ⟨0, [0], []⟩ 0 (by decide) (by decide) (by decide)⟩

/-! ### Claim C5 -/

theorem retireOneUse_cases {i q : Nat} {s : ScopeData} {block : PredicatedBlock}
    {st st₂ : ScanState}
    (h : retireOneUse s i block st q = some st₂) :
    st₂.lrs = st.lrs ∧
    (∀ l, l ∈ st.freeLocs → l ∈ st₂.freeLocs) ∧
    (∀ p, p ≠ q → mapLookup p st₂.curLocs = mapLookup p st.curLocs) ∧
    (∀ p, mapLookup p st.curLocs = none → mapLookup p st₂.curLocs = none) := by
  simp only [retireOneUse] at h
  split at h
  · simp only [Option.some.injEq] at h
    subst h
    exact ⟨rfl, fun _ hl => hl, fun _ _ => rfl, fun _ hn => hn⟩
  · split at h
    · split at h
      · exact absurd h (by simp)
      · split at h
        · split at h
          · exact absurd h (by simp)
          · rename_i lr hlr curUseLoc hcur
            split at h
            · exact absurd h (by simp)
            · simp only [Option.some.injEq] at h
              subst h
              refine ⟨rfl, fun l hl => mem_setInsert_of_mem _ hl, ?_, ?_⟩
              · intro p hpq
                exact mapLookup_mapErase_ne _ hpq
              · intro p hn
                by_cases hpq : p = q
                · subst hpq
                  exact mapLookup_mapErase_self _ _
                · rw [mapLookup_mapErase_ne _ hpq]
                  exact hn
        · simp only [Option.some.injEq] at h
          subst h
          exact ⟨rfl, fun _ hl => hl, fun _ _ => rfl, fun _ hn => hn⟩
    · exact absurd h (by simp)

theorem retireOneUse_self {i : Nat} {s : ScopeData} {block : PredicatedBlock}
    {st st₂ : ScanState} {p : Nat} {lr : LiveRange} {l : Location}
    (hex : rootHeaderExempt s p = false)
    (hlr : mapLookup p st.lrs = some lr) (hlast : lr.lastUse i = true)
    (hcur : mapLookup p st.curLocs = some l)
    (h : retireOneUse s i block st p = some st₂) :
    l ∈ st₂.freeLocs ∧ mapLookup p st₂.curLocs = none := by
  simp only [retireOneUse, hex, Bool.false_eq_true, if_false, hlr, hcur, hlast,
    if_true] at h
  split at h
  · split at h
    · exact absurd h (by simp)
    · rename_i hcnt
      simp only [Option.some.injEq] at h
      subst h
      constructor
      · exact self_mem_setInsert l st.freeLocs (by
          cases hc : setCount l st.freeLocs with
          | false => rfl
          | true => exact absurd hc hcnt)
      · exact mapLookup_mapErase_self _ _
  · exact absurd h (by simp)

/-- Once a predicate is retired, the remaining retire iterations keep its
location in the free set and keep it out of the current-location map. -/
theorem retireFold_preserve {i : Nat} {s : ScopeData} {block : PredicatedBlock}
    {p : Nat} {l : Location} :
    ∀ (ps : List Nat) (st st₂ : ScanState),
    l ∈ st.freeLocs → mapLookup p st.curLocs = none →
    ps.foldlM (retireOneUse s i block) st = some st₂ →
    l ∈ st₂.freeLocs ∧ mapLookup p st₂.curLocs = none := by
  intro ps
  induction ps with
  | nil =>
    intro st st₂ hl hn h
    simp only [List.foldlM_nil, Option.pure_def, Option.some.injEq] at h
    exact h ▸ ⟨hl, hn⟩
  | cons q t ih =>
    intro st st₂ hl hn h
    simp only [List.foldlM_cons] at h
    cases h₁ : retireOneUse s i block st q with
    | none => rw [h₁] at h; simp at h
    | some st₁ =>
      rw [h₁] at h
      simp only [Option.bind_eq_bind, Option.some_bind] at h
      obtain ⟨_, hfree, _, hnone⟩ := retireOneUse_cases h₁
      exact ih st₁ st₂ (hfree l hl) (hnone p hn) h

theorem retireUses_effect {i : Nat} {s : ScopeData} {block : PredicatedBlock}
    {p : Nat} {lr : LiveRange} {l : Location}
    (hex : rootHeaderExempt s p = false) (hlast : lr.lastUse i = true) :
    ∀ (ps : List Nat) (st st₂ : ScanState),
    p ∈ ps →
    mapLookup p st.lrs = some lr →
    mapLookup p st.curLocs = some l →
    ps.foldlM (retireOneUse s i block) st = some st₂ →
    l ∈ st₂.freeLocs ∧ mapLookup p st₂.curLocs = none := by
  intro ps
  induction ps with
  | nil => intro st st₂ hp _ _ _; simp at hp
  | cons q t ih =>
    intro st st₂ hp hlr hcur h
    simp only [List.foldlM_cons] at h
    cases h₁ : retireOneUse s i block st q with
    | none => rw [h₁] at h; simp at h
    | some st₁ =>
      rw [h₁] at h
      simp only [Option.bind_eq_bind, Option.some_bind] at h
      by_cases hpq : p = q
      · subst hpq
        obtain ⟨hfree, hnone⟩ := retireOneUse_self hex hlr hlast hcur h₁
        exact retireFold_preserve t st₁ st₂ hfree hnone h
      · rcases List.mem_cons.mp hp with hp₂ | hp₂
        · exact absurd hp₂ hpq
        · obtain ⟨hlrs, _, hcne, _⟩ := retireOneUse_cases h₁
          refine ih st₁ st₂ hp₂ ?_ ?_ h
          · rw [hlrs]
            exact hlr
          · rw [hcne p hpq]
            exact hcur

/-- Claim C5: in the retire phase of `handlePredUse` (`retireUses`,
executed at block position `i` right after the use phase), a block
predicate `p` whose live range satisfies `lastUse i` has its current
location inserted into the free set and its entry removed from the
current-location map; and since the live ranges are the ones built by
`createLiveRanges` from the same block list, no block at a position after
`i` lists `p` among its block predicates, so no later `UseLoc` is ever
recorded for `p` (a later *definition* of `p` is the only way it re-enters
the maps). -/
theorem claim5_retirement (s : ScopeData) (i : Nat) (block : PredicatedBlock)
    (st st₂ : ScanState) (p : Nat) (lr : LiveRange) (l : Location)
    (hlrs : st.lrs = createLiveRanges s)
    (hp : p ∈ block.preds)
    (hex : rootHeaderExempt s p = false)
    (hlr : mapLookup p st.lrs = some lr)
    (hlast : lr.lastUse i = true)
    (hcur : mapLookup p st.curLocs = some l)
    (hret : retireUses s i block st = some st₂) :
    (l ∈ st₂.freeLocs ∧ mapLookup p st₂.curLocs = none) ∧
    (∀ j b, i < j → s.blocks[j]? = some b → p ∉ b.preds) := by
  constructor
  · exact retireUses_effect hex hlast block.preds st st₂ hp hlr hcur hret
  · intro j b hij hb hpb
    obtain ⟨lr₂, hl₂, hc₂⟩ := createLiveRanges_use hb hpb
    rw [hlrs] at hlr
    rw [hlr] at hl₂
    obtain rfl := Option.some.inj hl₂
    have hsz := createLiveRanges_size hlr
    have hjlen : j < s.blocks.length := by
      by_contra hge
      rw [List.getElem?_eq_none (Nat.le_of_not_lt hge)] at hb
      exact Option.noConfusion hb
    have hf := lastUse_no_later hlast hij (by omega)
    rw [hc₂] at hf
    exact absurd hf (by simp)

def sW5 : ScopeData := ⟨[⟨0, [7], []⟩], true, false⟩

def stW5 : ScanState := ⟨[], [(7, ⟨LocTy.Register, 0⟩)], [], 1, createLiveRanges sW5, []⟩

def stW5r : ScanState := ⟨[⟨LocTy.Register, 0⟩], [], [], 1, createLiveRanges sW5, []⟩

theorem claim5_witness :
    retireUses sW5 0 ⟨0, [7], []⟩ stW5 = some stW5r ∧
    (⟨LocTy.Register, 0⟩ : Location) ∈ stW5r.freeLocs ∧
    mapLookup 7 stW5r.curLocs = none ∧
    (∀ j b, 0 < j → sW5.blocks[j]? = some b → 7 ∉ b.preds) := by
  have h := claim5_retirement sW5 0 ⟨0, [7], []⟩ stW5 stW5r 7 ⟨2, [0], []⟩
    ⟨LocTy.Register, 0⟩ (by rfl) (by decide) (by decide) (by decide) (by decide)
    (by decide) (by decide)
  exact ⟨by decide, h.1.1, h.1.2, h.2⟩

/-! ### Claim C3

The source comparator `operator<` (embedded as `locLt`) compares indices
when the two types agree and returns `false` for every cross-type pair, so
register locations do **not** sort before stack locations. -/

/-- Claim C3 evaluation at the failing input: `Register 0 < Stack 0` is
`false` under the source's `operator<` (the claim requires it to be
`true`), the reverse comparison is also `false`, yet `Register 0 <
Register 1` holds — so `Register 0` and `Stack 0` are
comparator-equivalent, `Stack 0` and `Register 1` are
comparator-equivalent, but `Register 0 < Register 1`: the comparator is
not even a strict weak ordering, which `std::set<Location>` requires. -/
theorem claim3_locLt_not_register_first :
    locLt ⟨LocTy.Register, 0⟩ ⟨LocTy.Stack, 0⟩ = false ∧
    locLt ⟨LocTy.Stack, 0⟩ ⟨LocTy.Register, 0⟩ = false ∧
    locLt ⟨LocTy.Register, 0⟩ ⟨LocTy.Register, 1⟩ = true ∧
    locLt ⟨LocTy.Stack, 0⟩ ⟨LocTy.Register, 1⟩ = false ∧
    locLt ⟨LocTy.Register, 1⟩ ⟨LocTy.Stack, 0⟩ = false := by
  decide

/-! ### Use/load/spill location queries (`RAInfo::getUseLocs` and friends) -/

/-- `RAInfo::Impl::unifyRegister`: add the scope's `FirstUsableReg`. -/
def unifyRegister (fur idx : Nat) : Nat := idx + fur

/-- `RAInfo::Impl::unifyStack`: add the scope's `FirstUsableStackSlot`. -/
def unifyStack (fuss idx : Nat) : Nat := idx + fuss

/-- `RAInfo::Impl::getAnyLoc`: the predicates of the block whose `UseLoc`
has the selected optional slot set, mapped through `unifyRegister`. -/
def getAnyLoc (fur : Nat) (st : ScanState) (mbb : Nat)
    (f : UseLocR → Bool × Nat) : List (Nat × Nat) :=
  match mapLookup mbb st.useLocs with
  | none => []
  | some m =>
    m.foldl (fun acc pu =>
      if (f pu.2).1 then mapSet pu.1 (unifyRegister fur (f pu.2).2) acc else acc) []

/-- `RAInfo::getLoadLocs`. -/
def getLoadLocs (fur : Nat) (st : ScanState) (mbb : Nat) : List (Nat × Nat) :=
  getAnyLoc fur st mbb (fun ul => ul.load)

/-- `RAInfo::getSpillLocs`. -/
def getSpillLocs (fur : Nat) (st : ScanState) (mbb : Nat) : List (Nat × Nat) :=
  getAnyLoc fur st mbb (fun ul => ul.spill)

theorem getAnyLoc_fold_sound {fur p x : Nat} {f : UseLocR → Bool × Nat} :
    ∀ (L : List (Nat × UseLocR)) (acc : List (Nat × Nat)),
    mapLookup p (L.foldl (fun acc pu =>
      if (f pu.2).1 then mapSet pu.1 (unifyRegister fur (f pu.2).2) acc else acc) acc) =
      some x →
    (∃ ul, (p, ul) ∈ L ∧ (f ul).1 = true) ∨ mapLookup p acc = some x := by
  intro L
  induction L with
  | nil => intro acc h; exact Or.inr h
  | cons pu t ih =>
    intro acc h
    simp only [List.foldl_cons] at h
    rcases ih _ h with h₂ | h₂
    · obtain ⟨ul, hmem, hfl⟩ := h₂
      exact Or.inl ⟨ul, List.mem_cons_of_mem _ hmem, hfl⟩
    · by_cases hfl : (f pu.2).1 = true
      · rw [if_pos hfl] at h₂
        by_cases hpq : p = pu.1
        · refine Or.inl ⟨pu.2, List.mem_cons.mpr (Or.inl ?_), hfl⟩
          rw [hpq]
        · rw [mapLookup_mapSet_ne _ _ hpq] at h₂
          exact Or.inr h₂
      · rw [if_neg hfl] at h₂
        exact Or.inr h₂

theorem getAnyLoc_fold_some {fur p : Nat} {f : UseLocR → Bool × Nat} :
    ∀ (L : List (Nat × UseLocR)) (acc : List (Nat × Nat)),
    (mapLookup p acc).isSome = true →
    (mapLookup p (L.foldl (fun acc pu =>
      if (f pu.2).1 then mapSet pu.1 (unifyRegister fur (f pu.2).2) acc else acc) acc)).isSome
      = true := by
  intro L
  induction L with
  | nil => intro acc h; exact h
  | cons pu t ih =>
    intro acc h
    simp only [List.foldl_cons]
    refine ih _ ?_
    by_cases hfl : (f pu.2).1 = true
    · rw [if_pos hfl]
      by_cases hpq : p = pu.1
      · subst hpq
        rw [mapLookup_mapSet_self]
        rfl
      · rw [mapLookup_mapSet_ne _ _ hpq]
        exact h
    · rw [if_neg hfl]
      exact h

theorem getAnyLoc_fold_complete {fur p : Nat} {ul : UseLocR} {f : UseLocR → Bool × Nat} :
    ∀ (L : List (Nat × UseLocR)) (acc : List (Nat × Nat)),
    (p, ul) ∈ L → (f ul).1 = true →
    (mapLookup p (L.foldl (fun acc pu =>
      if (f pu.2).1 then mapSet pu.1 (unifyRegister fur (f pu.2).2) acc else acc) acc)).isSome
      = true := by
  intro L
  induction L with
  | nil => intro acc h _; simp at h
  | cons pu t ih =>
    intro acc hmem hfl
    rcases List.mem_cons.mp hmem with hmem | hmem
    · simp only [List.foldl_cons, ← hmem, hfl, if_pos]
      refine getAnyLoc_fold_some t _ ?_
      rw [mapLookup_mapSet_self]
      rfl
    · simp only [List.foldl_cons]
      exact ih _ hmem hfl

/-! ### Claim C9 -/

/-- Claim C9: for every block and predicate of a scope allocation computed
by `runImpl` (the `RAInfo::Impl` construction), a spill-after-use location
reported by `getSpillLocs` comes with a load-before-use location reported
by `getLoadLocs` for the same predicate at the same block: every `UseLoc`
the scan creates sets `spill` only in the eviction path, which always sets
`load` as well. -/
theorem claim9_spill_implies_load (maxRegs fur : Nat) (s : ScopeData)
    (st : ScanState) (mbb p x : Nat)
    (hmr : 1 ≤ maxRegs)
    (hrun : runImpl maxRegs s = some st)
    (hsp : mapLookup p (getSpillLocs fur st mbb) = some x) :
    ∃ y, mapLookup p (getLoadLocs fur st mbb) = some y := by
  have hInv := runImpl_inv hmr hrun
  unfold getSpillLocs getAnyLoc at hsp
  cases hm : mapLookup mbb st.useLocs with
  | none => rw [hm] at hsp; simp [mapLookup] at hsp
  | some m =>
    rw [hm] at hsp
    rcases getAnyLoc_fold_sound m [] hsp with h | h
    · obtain ⟨ul, hmem, hfl⟩ := h
      have hulOK := hInv.2.2 _ (mapLookup_mem hm) _ hmem
      have hload : ul.load.1 = true := hulOK.2 hfl
      have := @getAnyLoc_fold_complete fur p ul (fun ul₂ => ul₂.load) m [] hmem hload
      unfold getLoadLocs getAnyLoc
      rw [hm]
      exact Option.isSome_iff_exists.mp this
    · simp [mapLookup] at h

def scope9W : ScopeData := ⟨[⟨0, [1], [2]⟩, ⟨1, [2], []⟩, ⟨2, [1], []⟩], true, false⟩

def st9W : ScanState := (runImpl 1 scope9W).getD (initState scope9W)

theorem claim9_witness :
    runImpl 1 scope9W = some st9W ∧
    mapLookup 2 (getSpillLocs 0 st9W 1) = some 1 ∧
    ∃ y, mapLookup 2 (getLoadLocs 0 st9W 1) = some y :=
  ⟨by decide, by decide,
   claim9_spill_implies_load 1 0 scope9W st9W 1 2 1 (by decide) (by decide) (by decide)⟩

/-! ### The scope tree and `RAInfo::computeRegAlloc`

`ScopeTree`/`ScopeForest` model the `SPScope` tree (a forest is the child
list).  `computeRegAlloc` first visits the tree in post-order, running the
`RAInfo` construction (`runImpl`) for every scope and folding
`unifyWithChild` over the children (`buildPre`), then walks it depth-first
pre-order threading the spill-slot counter and applying `unifyWithParent`
to every non-top-level scope (`unifyTree`). -/

mutual

inductive ScopeTree where
  | node : ScopeData → ScopeForest → ScopeTree

inductive ScopeForest where
  | fnil : ScopeForest
  | fcons : ScopeTree → ScopeForest → ScopeForest

end

mutual

inductive PreTree where
  | node : ScopeData → ScanState → Nat → PreForest → PreTree

inductive PreForest where
  | fnil : PreForest
  | fcons : PreTree → PreForest → PreForest

end

def PreTree.scope : PreTree → ScopeData
  | .node s _ _ _ => s

def PreTree.state : PreTree → ScanState
  | .node _ st _ _ => st

def PreTree.cmax : PreTree → Nat
  | .node _ _ c _ => c

/-- `RAInfo::Impl::getCumLocs`: own locations plus the children's maximum. -/
def preCum (pt : PreTree) : Nat := pt.state.numLocs + pt.cmax

/-- The fold of `unifyWithChild` over the children:
`ChildrenMaxCumLocs = max(child.getCumLocs(), ChildrenMaxCumLocs)`. -/
def forestMaxCum : PreForest → Nat
  | .fnil => 0
  | .fcons pt pts => max (preCum pt) (forestMaxCum pts)

mutual

def buildPre (maxRegs : Nat) : ScopeTree → Option PreTree
  | .node s cs => do
    let pcs ← buildPreForest maxRegs cs
    let st ← runImpl maxRegs s
    some (.node s st (forestMaxCum pcs) pcs)

def buildPreForest (maxRegs : Nat) : ScopeForest → Option PreForest
  | .fnil => some .fnil
  | .fcons t ts => do
    let pt ← buildPre maxRegs t
    let pts ← buildPreForest maxRegs ts
    some (.fcons pt pts)

end

/-- `RAInfo::neededSpillLocs`. -/
def neededSpillLocs (maxRegs numLocs : Nat) : Nat :=
  if numLocs < maxRegs then 0 else numLocs - maxRegs

/-- Per-scope allocation result after the depth-first unification pass:
the fields of `RAInfo::Impl` the later passes query, plus — for stating
the scope-spill criterion — the `NumLocs` of the parent the scope was
unified with (0 for a top-level scope). -/
structure RAEntry where
  scope : ScopeData
  st : ScanState
  childrenMaxCumLocs : Nat
  fur : Nat
  fuss : Nat
  needsScopeSpill : Bool
  parentNumLocs : Nat
deriving DecidableEq, Repr

/-- `unifyWithParent` at one scope of the depth-first pass: a scope whose
`isTopLevel` flag is set, or the root (`parent = none`), keeps the
constructor defaults (`FirstUsableReg = 0`, `NeedsScopeSpill = true`); any
other scope gets `FirstUsableReg = parent's first usable + parent's
NumLocs` and `NeedsScopeSpill = false` exactly when
`parent.NumLocs + getCumLocs() <= MaxRegs`, and its
`FirstUsableStackSlot` from the running spill counter when
`NumLocs > MaxRegs`. -/
def unifyEntry (maxRegs : Nat) (parent : Option (Nat × Nat)) (cnt : Nat)
    (s : ScopeData) (st : ScanState) (cmax : Nat) : RAEntry :=
  match parent with
  | some (pn, pfur) =>
    if s.isTopLevel then ⟨s, st, cmax, 0, 0, true, 0⟩
    else
      let cond : Bool := decide (pn + (st.numLocs + cmax) ≤ maxRegs)
      ⟨s, st, cmax, if cond then pfur + pn else 0,
       if maxRegs < st.numLocs then cnt else 0, !cond, pn⟩
  | none => ⟨s, st, cmax, 0, 0, true, 0⟩

mutual

/-- The depth-first pass of `computeRegAlloc`: for a non-top-level scope
apply `unifyWithParent` (with `parent` the parent's `(NumLocs,
FirstUsableReg)` and `cnt` the running `spillLocCnt`), then add the
scope's `neededSpillLocs` to the counter and recurse into the children. -/
def unifyTree (maxRegs : Nat) (parent : Option (Nat × Nat)) (cnt : Nat) :
    PreTree → List RAEntry × Nat
  | .node s st cmax pcs =>
    let e : RAEntry := unifyEntry maxRegs parent cnt s st cmax
    let cnt₂ := cnt + neededSpillLocs maxRegs st.numLocs
    let r := unifyForest maxRegs (some (st.numLocs, e.fur)) cnt₂ pcs
    (e :: r.1, r.2)

def unifyForest (maxRegs : Nat) (parent : Option (Nat × Nat)) (cnt : Nat) :
    PreForest → List RAEntry × Nat
  | .fnil => ([], cnt)
  | .fcons pt pts =>
    let r₁ := unifyTree maxRegs parent cnt pt
    let r₂ := unifyForest maxRegs parent r₁.2 pts
    (r₁.1 ++ r₂.1, r₂.2)

end

/-- `RAInfo::computeRegAlloc`: post-order construction, then the
depth-first offset pass from the root (the root scope of a function is its
top-level scope; a non-top-level root would dereference a null parent in
the source). -/
def computeRegAlloc (maxRegs : Nat) (t : ScopeTree) : Option (List RAEntry) := do
  let pt ← buildPre maxRegs t
  match pt with
  | .node s _ _ _ =>
    if s.isTopLevel then some (unifyTree maxRegs none 0 pt).1 else none

/-- `RAInfo::getUseLocs`: every use location of the block, unified with
the scope's register offset; the source asserts `loc < MaxRegs` for each,
so the embedding returns `none` if any unified location is out of
bounds. -/
def getUseLocs (maxRegs fur : Nat) (st : ScanState) (mbb : Nat) :
    Option (List (Nat × Nat)) :=
  match mapLookup mbb st.useLocs with
  | none => some []
  | some m =>
    m.foldlM (fun acc pu =>
      let loc := unifyRegister fur pu.2.loc
      if loc < maxRegs then some (mapSet pu.1 loc acc) else none) []

theorem unifyEntry_none (maxRegs cnt : Nat) (s : ScopeData) (st : ScanState)
    (cmax : Nat) :
    unifyEntry maxRegs none cnt s st cmax = ⟨s, st, cmax, 0, 0, true, 0⟩ := rfl

theorem unifyEntry_some_top {s : ScopeData} (maxRegs pn pfur cnt : Nat)
    (st : ScanState) (cmax : Nat) (hst : s.isTopLevel = true) :
    unifyEntry maxRegs (some (pn, pfur)) cnt s st cmax =
      ⟨s, st, cmax, 0, 0, true, 0⟩ := by
  simp [unifyEntry, hst]

theorem unifyEntry_some_nontop {s : ScopeData} (maxRegs pn pfur cnt : Nat)
    (st : ScanState) (cmax : Nat) (hst : s.isTopLevel = false) :
    unifyEntry maxRegs (some (pn, pfur)) cnt s st cmax =
      ⟨s, st, cmax,
       if decide (pn + (st.numLocs + cmax) ≤ maxRegs) then pfur + pn else 0,
       if maxRegs < st.numLocs then cnt else 0,
       !decide (pn + (st.numLocs + cmax) ≤ maxRegs), pn⟩ := by
  simp [unifyEntry, hst]

/-! ### Claim C2 -/

theorem unifyTree_node (maxRegs : Nat) (parent : Option (Nat × Nat)) (cnt : Nat)
    (s : ScopeData) (st : ScanState) (cmax : Nat) (pcs : PreForest) :
    unifyTree maxRegs parent cnt (.node s st cmax pcs) =
      (unifyEntry maxRegs parent cnt s st cmax ::
        (unifyForest maxRegs
          (some (st.numLocs, (unifyEntry maxRegs parent cnt s st cmax).fur))
          (cnt + neededSpillLocs maxRegs st.numLocs) pcs).1,
       (unifyForest maxRegs
          (some (st.numLocs, (unifyEntry maxRegs parent cnt s st cmax).fur))
          (cnt + neededSpillLocs maxRegs st.numLocs) pcs).2) := rfl

theorem unifyForest_fnil (maxRegs : Nat) (parent : Option (Nat × Nat)) (cnt : Nat) :
    unifyForest maxRegs parent cnt .fnil = ([], cnt) := rfl

theorem unifyForest_fcons (maxRegs : Nat) (parent : Option (Nat × Nat)) (cnt : Nat)
    (pt : PreTree) (pts : PreForest) :
    unifyForest maxRegs parent cnt (.fcons pt pts) =
      ((unifyTree maxRegs parent cnt pt).1 ++
        (unifyForest maxRegs parent (unifyTree maxRegs parent cnt pt).2 pts).1,
       (unifyForest maxRegs parent (unifyTree maxRegs parent cnt pt).2 pts).2) := rfl

mutual

theorem needsSpillIffTree (maxRegs : Nat) :
    ∀ (pt : PreTree) (parent : Option (Nat × Nat)) (cnt : Nat),
    (parent = none → pt.scope.isTopLevel = true) →
    ∀ e ∈ (unifyTree maxRegs parent cnt pt).1, e.scope.isTopLevel = false →
      (e.needsScopeSpill = false ↔
        e.parentNumLocs + (e.st.numLocs + e.childrenMaxCumLocs) ≤ maxRegs)
  | .node s st cmax pcs, parent, cnt, hroot => by
    intro e hmem htop
    rw [unifyTree_node] at hmem
    rcases List.mem_cons.mp hmem with hmem | hmem
    · subst hmem
      cases parent with
      | none =>
        have hst := hroot rfl
        simp only [PreTree.scope] at hst
        rw [unifyEntry_none] at htop
        have h₂ : s.isTopLevel = false := htop
        rw [hst] at h₂
        exact absurd h₂ (by simp)
      | some pr =>
        obtain ⟨pn, pfur⟩ := pr
        by_cases hst : s.isTopLevel = true
        · rw [unifyEntry_some_top maxRegs pn pfur cnt st cmax hst] at htop
          have h₂ : s.isTopLevel = false := htop
          rw [hst] at h₂
          exact absurd h₂ (by simp)
        · have hst₂ : s.isTopLevel = false :=
            Bool.not_eq_true _ ▸ Bool.eq_false_iff.mpr hst
          rw [unifyEntry_some_nontop maxRegs pn pfur cnt st cmax hst₂]
          constructor
          · intro h
            have h₂ : (!decide (pn + (st.numLocs + cmax) ≤ maxRegs)) = false := h
            simpa using h₂
          · intro h
            show (!decide (pn + (st.numLocs + cmax) ≤ maxRegs)) = false
            simpa using h
    · exact needsSpillIffForest maxRegs pcs _ _
        (fun h => Option.noConfusion h) e hmem htop

theorem needsSpillIffForest (maxRegs : Nat) :
    ∀ (pf : PreForest) (parent : Option (Nat × Nat)) (cnt : Nat),
    (parent = none → False) →
    ∀ e ∈ (unifyForest maxRegs parent cnt pf).1, e.scope.isTopLevel = false →
      (e.needsScopeSpill = false ↔
        e.parentNumLocs + (e.st.numLocs + e.childrenMaxCumLocs) ≤ maxRegs)
  | .fnil, parent, cnt, hp => by
    intro e hmem
    rw [unifyForest_fnil] at hmem
    exact absurd hmem (List.not_mem_nil e)
  | .fcons pt pts, parent, cnt, hp => by
    intro e hmem htop
    rw [unifyForest_fcons] at hmem
    rcases List.mem_append.mp hmem with hmem | hmem
    · exact needsSpillIffTree maxRegs pt parent cnt (fun h => absurd (hp h) id)
        e hmem htop
    · exact needsSpillIffForest maxRegs pts parent _ hp e hmem htop

end

/-- Claim C2: after `computeRegAlloc`, a non-top-level scope's entry has
`needsScopeSpill = false` exactly when the parent's location count plus
the scope's cumulative location count (its own `NumLocs` plus the maximum
cumulative locations of any child) is at most the number of available
predicate registers. -/
theorem claim2_needs_scope_spill (maxRegs : Nat) (t : ScopeTree)
    (entries : List RAEntry)
    (hca : computeRegAlloc maxRegs t = some entries) :
    ∀ e ∈ entries, e.scope.isTopLevel = false →
      (e.needsScopeSpill = false ↔
        e.parentNumLocs + (e.st.numLocs + e.childrenMaxCumLocs) ≤ maxRegs) := by
  intro e hmem htop
  simp only [computeRegAlloc, Option.bind_eq_bind] at hca
  cases hpt : buildPre maxRegs t with
  | none => rw [hpt] at hca; simp at hca
  | some pt =>
    rw [hpt] at hca
    simp only [Option.some_bind] at hca
    obtain ⟨s, st, cmax, pcs⟩ := pt
    have hca₂ : (if s.isTopLevel = true then
        some (unifyTree maxRegs none 0 (PreTree.node s st cmax pcs)).1
      else none) = some entries := hca
    by_cases hst : s.isTopLevel = true
    · rw [if_pos hst] at hca₂
      injection hca₂ with hq
      subst hq
      exact needsSpillIffTree maxRegs (.node s st cmax pcs) none 0
        (fun _ => by simpa [PreTree.scope] using hst) e hmem htop
    · rw [if_neg hst] at hca₂
      exact absurd hca₂ (by simp)

def rootSW : ScopeData := ⟨[⟨0, [1], []⟩], true, true⟩

def childSW : ScopeData := ⟨[⟨5, [3], []⟩], false, false⟩

def treeW : ScopeTree := .node rootSW (.fcons (.node childSW .fnil) .fnil)

def entriesW : List RAEntry := (computeRegAlloc 2 treeW).getD []

def childStW : ScanState := (runImpl 2 childSW).getD (initState childSW)

def childEntryW : RAEntry := ⟨childSW, childStW, 0, 0, 0, false, 0⟩

theorem claim2_witness :
    computeRegAlloc 2 treeW = some entriesW ∧ childEntryW ∈ entriesW ∧
    childEntryW.scope.isTopLevel = false ∧
    (childEntryW.needsScopeSpill = false ↔
      childEntryW.parentNumLocs +
        (childEntryW.st.numLocs + childEntryW.childrenMaxCumLocs) ≤ 2) :=
  ⟨by decide, by decide, by decide,
   claim2_needs_scope_spill 2 treeW entriesW (by decide) childEntryW
     (by decide) (by decide)⟩

/-! ### Claim C10 -/

theorem preCum_node (s : ScopeData) (st : ScanState) (cmax : Nat)
    (pcs : PreForest) : preCum (.node s st cmax pcs) = st.numLocs + cmax := rfl

mutual

/-- Well-formedness of the post-order result: every node's state is the
scope's `RAInfo` construction result and its `ChildrenMaxCumLocs` is the
children's maximum cumulative count. -/
def wfPreTree (maxRegs : Nat) : PreTree → Prop
  | .node s st cmax pcs =>
    runImpl maxRegs s = some st ∧ cmax = forestMaxCum pcs ∧ wfPreForest maxRegs pcs

def wfPreForest (maxRegs : Nat) : PreForest → Prop
  | .fnil => True
  | .fcons pt pts => wfPreTree maxRegs pt ∧ wfPreForest maxRegs pts

end

theorem buildPre_node (maxRegs : Nat) (s : ScopeData) (cs : ScopeForest) :
    buildPre maxRegs (.node s cs) =
      (buildPreForest maxRegs cs).bind (fun pcs =>
        (runImpl maxRegs s).bind (fun st =>
          some (.node s st (forestMaxCum pcs) pcs))) := rfl

theorem buildPreForest_fnil (maxRegs : Nat) :
    buildPreForest maxRegs .fnil = some .fnil := rfl

theorem buildPreForest_fcons (maxRegs : Nat) (t : ScopeTree) (ts : ScopeForest) :
    buildPreForest maxRegs (.fcons t ts) =
      (buildPre maxRegs t).bind (fun pt =>
        (buildPreForest maxRegs ts).bind (fun pts =>
          some (.fcons pt pts))) := rfl

mutual

theorem buildPre_wf (maxRegs : Nat) :
    ∀ (t : ScopeTree) (pt : PreTree), buildPre maxRegs t = some pt →
      wfPreTree maxRegs pt
  | .node s cs, pt, h => by
    rw [buildPre_node] at h
    cases h₁ : buildPreForest maxRegs cs with
    | none => rw [h₁] at h; simp at h
    | some pcs =>
      rw [h₁] at h
      simp only [Option.some_bind] at h
      cases h₂ : runImpl maxRegs s with
      | none => rw [h₂] at h; simp at h
      | some st =>
        rw [h₂] at h
        simp only [Option.some_bind, Option.some.injEq] at h
        subst h
        exact ⟨h₂, rfl, buildPreForest_wf maxRegs cs pcs h₁⟩

theorem buildPreForest_wf (maxRegs : Nat) :
    ∀ (cs : ScopeForest) (pcs : PreForest), buildPreForest maxRegs cs = some pcs →
      wfPreForest maxRegs pcs
  | .fnil, pcs, h => by
    rw [buildPreForest_fnil] at h
    simp only [Option.some.injEq] at h
    subst h
    exact trivial
  | .fcons t ts, pcs, h => by
    rw [buildPreForest_fcons] at h
    cases h₁ : buildPre maxRegs t with
    | none => rw [h₁] at h; simp at h
    | some pt =>
      rw [h₁] at h
      simp only [Option.some_bind] at h
      cases h₂ : buildPreForest maxRegs ts with
      | none => rw [h₂] at h; simp at h
      | some pts =>
        rw [h₂] at h
        simp only [Option.some_bind, Option.some.injEq] at h
        subst h
        exact ⟨buildPre_wf maxRegs t pt h₁, buildPreForest_wf maxRegs ts pts h₂⟩

end

/-- Membership of a tree in a forest (the child list). -/
def forestMem (pc : PreTree) : PreForest → Prop
  | .fnil => False
  | .fcons pt pts => pc = pt ∨ forestMem pc pts

theorem forestMaxCum_ge :
    ∀ (pf : PreForest) (pc : PreTree), forestMem pc pf →
      preCum pc ≤ forestMaxCum pf
  | .fnil, pc, h => absurd h (fun h₂ => h₂)
  | .fcons pt pts, pc, h => by
    rcases h with h | h
    · subst h
      exact le_max_left _ _
    · exact le_trans (forestMaxCum_ge pts pc h) (le_max_right _ _)

mutual

theorem furInvTree (maxRegs : Nat) :
    ∀ (pt : PreTree) (parent : Option (Nat × Nat)) (cnt : Nat),
    wfPreTree maxRegs pt →
    (∀ pn pfur, parent = some (pn, pfur) →
      pfur = 0 ∨ pfur + pn + preCum pt ≤ maxRegs) →
    ∀ e ∈ (unifyTree maxRegs parent cnt pt).1,
      runImpl maxRegs e.scope = some e.st ∧
      (e.fur = 0 ∨ e.fur + (e.st.numLocs + e.childrenMaxCumLocs) ≤ maxRegs)
  | .node s st cmax pcs, parent, cnt, hwf, hpar => by
    intro e hmem
    rw [unifyTree_node] at hmem
    have hwf₂ : runImpl maxRegs s = some st ∧ cmax = forestMaxCum pcs ∧
        wfPreForest maxRegs pcs := hwf
    obtain ⟨hrun, hcmax, hwfF⟩ := hwf₂
    have hpre : preCum (PreTree.node s st cmax pcs) = st.numLocs + cmax := rfl
    have hchild : ∀ pc, forestMem pc pcs →
        (unifyEntry maxRegs parent cnt s st cmax).fur = 0 ∨
        (unifyEntry maxRegs parent cnt s st cmax).fur + st.numLocs + preCum pc ≤
          maxRegs := by
      intro pc hpc
      have hle : preCum pc ≤ cmax := by
        rw [hcmax]
        exact forestMaxCum_ge pcs pc hpc
      cases parent with
      | none =>
        rw [unifyEntry_none]
        exact Or.inl rfl
      | some pr =>
        obtain ⟨pn, pfur⟩ := pr
        by_cases hst : s.isTopLevel = true
        · rw [unifyEntry_some_top maxRegs pn pfur cnt st cmax hst]
          exact Or.inl rfl
        · rw [unifyEntry_some_nontop maxRegs pn pfur cnt st cmax
            (Bool.not_eq_true _ ▸ Bool.eq_false_iff.mpr hst)]
          by_cases hcond : pn + (st.numLocs + cmax) ≤ maxRegs
          · rw [decide_eq_true_eq.mpr hcond]
            show pfur + pn = 0 ∨ pfur + pn + st.numLocs + preCum pc ≤ maxRegs
            right
            rcases hpar pn pfur rfl with h0 | hsum
            · subst h0
              omega
            · rw [hpre] at hsum
              omega
          · rw [decide_eq_false_iff_not.mpr hcond]
            exact Or.inl rfl
    rcases List.mem_cons.mp hmem with hmem | hmem
    · subst hmem
      constructor
      · have hsast : (unifyEntry maxRegs parent cnt s st cmax).scope = s ∧
            (unifyEntry maxRegs parent cnt s st cmax).st = st := by
          cases parent with
          | none => exact ⟨rfl, rfl⟩
          | some pr =>
            obtain ⟨pn, pfur⟩ := pr
            by_cases hst : s.isTopLevel = true
            · rw [unifyEntry_some_top maxRegs pn pfur cnt st cmax hst]
              exact ⟨rfl, rfl⟩
            · rw [unifyEntry_some_nontop maxRegs pn pfur cnt st cmax
                (Bool.not_eq_true _ ▸ Bool.eq_false_iff.mpr hst)]
              exact ⟨rfl, rfl⟩
        rw [hsast.1, hsast.2]
        exact hrun
      · cases parent with
        | none =>
          rw [unifyEntry_none]
          exact Or.inl rfl
        | some pr =>
          obtain ⟨pn, pfur⟩ := pr
          by_cases hst : s.isTopLevel = true
          · rw [unifyEntry_some_top maxRegs pn pfur cnt st cmax hst]
            exact Or.inl rfl
          · rw [unifyEntry_some_nontop maxRegs pn pfur cnt st cmax
              (Bool.not_eq_true _ ▸ Bool.eq_false_iff.mpr hst)]
            by_cases hcond : pn + (st.numLocs + cmax) ≤ maxRegs
            · rw [decide_eq_true_eq.mpr hcond]
              show pfur + pn = 0 ∨ pfur + pn + (st.numLocs + cmax) ≤ maxRegs
              right
              rcases hpar pn pfur rfl with h0 | hsum
              · subst h0
                omega
              · rw [hpre] at hsum
                omega
            · rw [decide_eq_false_iff_not.mpr hcond]
              exact Or.inl rfl
    · refine furInvForest maxRegs pcs _ _ hwfF ?_ e hmem
      intro pn pfur hp pc hpc
      simp only [Option.some.injEq, Prod.mk.injEq] at hp
      obtain ⟨h₁, h₂⟩ := hp
      subst h₁
      subst h₂
      exact hchild pc hpc

theorem furInvForest (maxRegs : Nat) :
    ∀ (pf : PreForest) (parent : Option (Nat × Nat)) (cnt : Nat),
    wfPreForest maxRegs pf →
    (∀ pn pfur, parent = some (pn, pfur) → ∀ pc, forestMem pc pf →
      pfur = 0 ∨ pfur + pn + preCum pc ≤ maxRegs) →
    ∀ e ∈ (unifyForest maxRegs parent cnt pf).1,
      runImpl maxRegs e.scope = some e.st ∧
      (e.fur = 0 ∨ e.fur + (e.st.numLocs + e.childrenMaxCumLocs) ≤ maxRegs)
  | .fnil, parent, cnt, hwf, hpar => by
    intro e hmem
    rw [unifyForest_fnil] at hmem
    exact absurd hmem (List.not_mem_nil e)
  | .fcons pt pts, parent, cnt, hwf, hpar => by
    intro e hmem
    have hwf₂ : wfPreTree maxRegs pt ∧ wfPreForest maxRegs pts := hwf
    rw [unifyForest_fcons] at hmem
    rcases List.mem_append.mp hmem with hmem | hmem
    · exact furInvTree maxRegs pt parent cnt hwf₂.1
        (fun pn pfur hp => hpar pn pfur hp pt (Or.inl rfl)) e hmem
    · exact furInvForest maxRegs pts parent _ hwf₂.2
        (fun pn pfur hp pc hpc => hpar pn pfur hp pc (Or.inr hpc)) e hmem

end

theorem getUseLocs_fold {maxRegs fur : Nat} :
    ∀ (L : List (Nat × UseLocR)) (acc : List (Nat × Nat)),
    (∀ pu ∈ L, unifyRegister fur pu.2.loc < maxRegs) →
    (∀ pr ∈ acc, pr.2 < maxRegs) →
    ∃ m, L.foldlM (fun acc pu =>
        let loc := unifyRegister fur pu.2.loc
        if loc < maxRegs then some (mapSet pu.1 loc acc) else none) acc = some m ∧
      ∀ pr ∈ m, pr.2 < maxRegs := by
  intro L
  induction L with
  | nil =>
    intro acc _ hacc
    exact ⟨acc, rfl, hacc⟩
  | cons pu t ih =>
    intro acc hL hacc
    have hhd : unifyRegister fur pu.2.loc < maxRegs := hL pu (List.mem_cons_self _ _)
    simp only [List.foldlM_cons, if_pos hhd, Option.bind_eq_bind, Option.some_bind]
    refine ih _ (fun pu₂ hpu₂ => hL pu₂ (List.mem_cons_of_mem _ hpu₂)) ?_
    intro pr hpr
    rcases mem_mapSet hpr with hpr | hpr
    · rw [hpr]
      exact hhd
    · exact hacc pr hpr

/-- Claim C10: for every scope entry produced by `computeRegAlloc` and
every basic block, `getUseLocs` succeeds — the assertion
`loc < MaxRegs` never fires — and every returned location value, the
scan's `UseLoc` register index plus the scope's inherited
`FirstUsableReg`, is strictly below the number of available registers. -/
theorem claim10_useLocs_bounded (maxRegs : Nat) (t : ScopeTree)
    (entries : List RAEntry) (hmr : 1 ≤ maxRegs)
    (hca : computeRegAlloc maxRegs t = some entries) :
    ∀ e ∈ entries, ∀ mbb, ∃ m, getUseLocs maxRegs e.fur e.st mbb = some m ∧
      ∀ pr ∈ m, pr.2 < maxRegs := by
  intro e hmem mbb
  simp only [computeRegAlloc, Option.bind_eq_bind] at hca
  cases hpt : buildPre maxRegs t with
  | none => rw [hpt] at hca; simp at hca
  | some pt =>
    rw [hpt] at hca
    simp only [Option.some_bind] at hca
    have hwf := buildPre_wf maxRegs t pt hpt
    obtain ⟨s, st, cmax, pcs⟩ := pt
    have hca₂ : (if s.isTopLevel = true then
        some (unifyTree maxRegs none 0 (PreTree.node s st cmax pcs)).1
      else none) = some entries := hca
    by_cases hst : s.isTopLevel = true
    · rw [if_pos hst] at hca₂
      injection hca₂ with hq
      subst hq
      obtain ⟨hrun, hfur⟩ := furInvTree maxRegs (.node s st cmax pcs) none 0 hwf
        (fun pn pfur hp => Option.noConfusion hp) e hmem
      have hInv := runImpl_inv hmr hrun
      unfold getUseLocs
      cases hm : mapLookup mbb e.st.useLocs with
      | none => exact ⟨[], rfl, fun pr hpr => absurd hpr (List.not_mem_nil pr)⟩
      | some m₀ =>
        refine getUseLocs_fold m₀ [] ?_ (fun pr hpr => absurd hpr (List.not_mem_nil pr))
        intro pu hpu
        have hOK := hInv.2.2 _ (mapLookup_mem hm) pu hpu
        have hloc := hOK.1
        unfold unifyRegister
        rcases hfur with h0 | hsum
        · rw [h0]
          omega
        · omega
    · rw [if_neg hst] at hca₂
      exact absurd hca₂ (by simp)

theorem claim10_witness :
    1 ≤ 2 ∧ computeRegAlloc 2 treeW = some entriesW ∧ childEntryW ∈ entriesW ∧
    ∃ m, getUseLocs 2 childEntryW.fur childEntryW.st 5 = some m ∧
      ∀ pr ∈ m, pr.2 < 2 :=
  ⟨by decide, by decide, by decide,
   claim10_useLocs_bounded 2 treeW entriesW (by decide) (by decide)
     childEntryW (by decide) 5⟩

/-! ### The redundant load/store eliminator
(`PatmosSPReduce.cpp`, class `RedundantLdStEliminator`)

Instructions are abstracted to the shape the analyses inspect:
`uncondLoad fi` is an instruction matched by `isUncondLoad` (an `LBC`/`LWC`
of the tracked scratch register from frame index `fi`, unconditional),
`uncondStore fi` one matched by `isUncondStore`, and `other` anything
else; frame indices are kept in normalized form (`normalizeFI`).  A
machine function gives the per-block instruction lists, the predecessor
lists, and its reverse-postorder block enumeration. -/

inductive PInstr where
  | uncondLoad : Nat → PInstr
  | uncondStore : Nat → PInstr
  | other : PInstr
deriving DecidableEq, Repr

structure MFun where
  numFIs : Nat
  rpo : List Nat
  code : Nat → List PInstr
  preds : Nat → List Nat

/-- The per-block bit vectors (`Blockinfo.LiveFIEntry/LiveFIExit`), zero
for blocks not yet written (the source zero-initialises every block's
`Blockinfo`). -/
structure LdState where
  entryM : List (Nat × Finset Nat)
  exitM : List (Nat × Finset Nat)
deriving DecidableEq

def ldEntry (st : LdState) (b : Nat) : Finset Nat := (mapLookup b st.entryM).getD ∅

def ldExit (st : LdState) (b : Nat) : Finset Nat := (mapLookup b st.exitM).getD ∅

def ldInit : LdState := ⟨[], []⟩

/-- The join of `findRedundantLoads`: all-ones intersected with every
predecessor's `LiveFIExit`; a block without predecessors gets the empty
set (`livein.reset()` — the entry knows no value). -/
def joinPreds (mf : MFun) (st : LdState) (b : Nat) : Finset Nat :=
  match mf.preds b with
  | [] => ∅
  | ps => ps.foldl (fun acc p => acc ∩ ldExit st p) (Finset.range mf.numFIs)

/-- The transfer function of the forward must-analysis: an unconditional
load of slot `fi` makes `fi` the only slot whose value the scratch
register is known to hold; every other instruction leaves the set
unchanged. -/
def ldTransfer (live : Finset Nat) : List PInstr → Finset Nat
  | [] => live
  | PInstr.uncondLoad fi :: rest => ldTransfer {fi} rest
  | PInstr.uncondStore _ :: rest => ldTransfer live rest
  | PInstr.other :: rest => ldTransfer live rest

/-- One block of one pass of the fixed-point loop, threading the running
state (Gauss–Seidel: later blocks of the same pass see earlier updates)
and the `changed` flag. -/
def ldPassBlock (mf : MFun) (acc : LdState × Bool) (b : Nat) : LdState × Bool :=
  let livein := joinPreds mf acc.1 b
  let ch₁ := acc.2 || decide (¬ ldEntry acc.1 b = livein)
  let st₁ : LdState := ⟨mapSet b livein acc.1.entryM, acc.1.exitM⟩
  let liveout := ldTransfer livein (mf.code b)
  let ch₂ := ch₁ || decide (¬ ldExit st₁ b = liveout)
  (⟨st₁.entryM, mapSet b liveout st₁.exitM⟩, ch₂)

/-- One pass over the blocks in reverse postorder. -/
def ldPass (mf : MFun) (st : LdState) : LdState × Bool :=
  mf.rpo.foldl (ldPassBlock mf) (st, false)

/-- The do/while fixed-point loop of `findRedundantLoads` (fuelled; the
source iterates until no pass reports a change). -/
def ldFix (mf : MFun) : Nat → LdState → Option LdState
  | 0, _ => none
  | fuel + 1, st =>
    let r := ldPass mf st
    if r.2 then ldFix mf fuel r.1 else some r.1

/-- The analysis fact right before instruction `i` of block `b`: the entry
set pushed through the preceding instructions of the block (this is the
`livefi` value the source stores in `collected_loads` when it reaches the
load; at the stable state the last pass stored exactly this). -/
def prefixFact (mf : MFun) (st : LdState) (b i : Nat) : Finset Nat :=
  ldTransfer (ldEntry st b) ((mf.code b).take i)

/-- The final marking of `findRedundantLoads`: a collected load of slot
`fi` at position `i` of block `b` is redundant when `fi` is in its
entry fact. -/
def redundantLoads (mf : MFun) (st : LdState) : List (Nat × Nat) :=
  mf.rpo.bind (fun b =>
    (mf.code b).enum.filterMap (fun ii =>
      match ii.2 with
      | PInstr.uncondLoad fi =>
        if fi ∈ prefixFact mf st b ii.1 then some (b, ii.1) else none
      | _ => none))

/-- `RedundantLdStEliminator::findRedundantLoads`: run the fixed point
from the zero-initialised state, then mark. -/
def findRedundantLoads (mf : MFun) (fuel : Nat) :
    Option (LdState × List (Nat × Nat)) :=
  (ldFix mf fuel ldInit).map (fun st => (st, redundantLoads mf st))

/-- `RedundantLdStEliminator::process`: the instructions erased are the
externally registered removable dummies plus the redundant loads; the
redundant-store analysis is disabled (its call is commented out in the
source with `FIXME the analysis is erroneous`), so the second `remove()`
call erases nothing. -/
def processRemovables (mf : MFun) (fuel : Nat) (dummies : List (Nat × Nat)) :
    Option (List (Nat × Nat)) :=
  (findRedundantLoads mf fuel).map (fun r => dummies ++ r.2)

/-- The function body after `process`: each block keeps exactly the
instructions at positions not erased. -/
def processBlock (removed : List (Nat × Nat)) (b : Nat) (code : List PInstr) :
    List PInstr :=
  code.enum.filterMap (fun ii => if (b, ii.1) ∈ removed then none else some ii.2)

/-- Two analysis states that agree on every block's entry and exit sets. -/
def stEquiv (st st₂ : LdState) : Prop :=
  (∀ b, ldEntry st b = ldEntry st₂ b) ∧ (∀ b, ldExit st b = ldExit st₂ b)

theorem stEquiv_refl (st : LdState) : stEquiv st st :=
  ⟨fun _ => rfl, fun _ => rfl⟩

theorem stEquiv_trans {st₁ st₂ st₃ : LdState} (h₁ : stEquiv st₁ st₂)
    (h₂ : stEquiv st₂ st₃) : stEquiv st₁ st₃ :=
  ⟨fun b => (h₁.1 b).trans (h₂.1 b), fun b => (h₁.2 b).trans (h₂.2 b)⟩

theorem joinPreds_congr {mf : MFun} {st st₂ : LdState} (h : stEquiv st st₂)
    (b : Nat) : joinPreds mf st b = joinPreds mf st₂ b := by
  unfold joinPreds
  cases hp : mf.preds b with
  | nil => rfl
  | cons p ps =>
    have : ∀ (l : List Nat) (acc : Finset Nat),
        l.foldl (fun acc p => acc ∩ ldExit st p) acc =
        l.foldl (fun acc p => acc ∩ ldExit st₂ p) acc := by
      intro l
      induction l with
      | nil => intro acc; rfl
      | cons q t ih =>
        intro acc
        simp only [List.foldl_cons, h.2 q, ih]
    exact this _ _

theorem lookupD_mapSet {α : Type} (d : α) (k : Nat) (v : α)
    (m : List (Nat × α)) (h : (mapLookup k m).getD d = v) :
    ∀ k₂, (mapLookup k₂ (mapSet k v m)).getD d = (mapLookup k₂ m).getD d := by
  intro k₂
  by_cases hk : k₂ = k
  · subst hk
    rw [mapLookup_mapSet_self, ← h]
    rfl
  · rw [mapLookup_mapSet_ne _ _ hk]

/-- A block step that raises no change flag leaves a semantically equal
state and witnesses that the block already satisfies its dataflow
equations. -/
theorem ldPassBlock_false {mf : MFun} {st st₂ : LdState} {b : Nat}
    (h : ldPassBlock mf (st, false) b = (st₂, false)) :
    stEquiv st st₂ ∧ ldEntry st b = joinPreds mf st b ∧
      ldExit st b = ldTransfer (ldEntry st b) (mf.code b) := by
  unfold ldPassBlock at h
  simp only [Bool.false_or, Prod.mk.injEq] at h
  obtain ⟨hst, hch⟩ := h
  rw [Bool.or_eq_false_iff] at hch
  obtain ⟨hd₁, hd₂⟩ := hch
  rw [decide_eq_false_iff_not, not_not] at hd₁
  rw [decide_eq_false_iff_not, not_not] at hd₂
  have hexit : ldExit st b = ldTransfer (joinPreds mf st b) (mf.code b) := hd₂
  refine ⟨?_, hd₁, by rw [hd₁]; exact hexit⟩
  rw [← hst]
  constructor
  · intro b₂
    show ldEntry st b₂ =
      (mapLookup b₂ (mapSet b (joinPreds mf st b) st.entryM)).getD ∅
    rw [lookupD_mapSet ∅ b (joinPreds mf st b) st.entryM hd₁ b₂]
    rfl
  · intro b₂
    show ldExit st b₂ =
      (mapLookup b₂ (mapSet b (ldTransfer (joinPreds mf st b) (mf.code b)) st.exitM)).getD ∅
    rw [lookupD_mapSet ∅ b (ldTransfer (joinPreds mf st b) (mf.code b)) st.exitM hexit b₂]
    rfl

theorem ldPassBlock_snd_true (mf : MFun) (p : LdState × Bool) (b : Nat)
    (hp : p.2 = true) : (ldPassBlock mf p b).2 = true := by
  unfold ldPassBlock
  simp [hp]

theorem ldPass_fold_true (mf : MFun) :
    ∀ (L : List Nat) (p : LdState × Bool), p.2 = true →
      (L.foldl (ldPassBlock mf) p).2 = true := by
  intro L
  induction L with
  | nil => intro p hp; exact hp
  | cons b t ih =>
    intro p hp
    exact ih (ldPassBlock mf p b) (ldPassBlock_snd_true mf p b hp)

theorem ldPass_fold_false {mf : MFun} :
    ∀ (L : List Nat) (st st₂ : LdState),
    L.foldl (ldPassBlock mf) (st, false) = (st₂, false) →
    stEquiv st st₂ ∧ ∀ b ∈ L, ldEntry st b = joinPreds mf st b ∧
      ldExit st b = ldTransfer (ldEntry st b) (mf.code b) := by
  intro L
  induction L with
  | nil =>
    intro st st₂ h
    simp only [List.foldl_nil, Prod.mk.injEq] at h
    exact ⟨h.1 ▸ stEquiv_refl st, fun b hb => absurd hb (List.not_mem_nil b)⟩
  | cons b t ih =>
    intro st st₂ h
    simp only [List.foldl_cons] at h
    cases hb : ldPassBlock mf (st, false) b with
    | mk st₁ ch₁ =>
      rw [hb] at h
      cases ch₁ with
      | true =>
        have := ldPass_fold_true mf t (st₁, true) rfl
        rw [h] at this
        exact absurd this (by simp)
      | false =>
        obtain ⟨hEq, hEntry, hExit⟩ := ldPassBlock_false hb
        obtain ⟨hEq₂, hRest⟩ := ih st₁ st₂ h
        refine ⟨stEquiv_trans hEq hEq₂, ?_⟩
        intro b₂ hb₂
        rcases List.mem_cons.mp hb₂ with hb₂ | hb₂
        · subst hb₂
          exact ⟨hEntry, hExit⟩
        · obtain ⟨hE, hX⟩ := hRest b₂ hb₂
          constructor
          · rw [hEq.1 b₂, hE, joinPreds_congr hEq b₂]
          · rw [hEq.2 b₂, hX, hEq.1 b₂]

theorem ldFix_equations {mf : MFun} :
    ∀ (fuel : Nat) (st₀ st : LdState),
    ldFix mf fuel st₀ = some st →
    ∀ b ∈ mf.rpo, ldEntry st b = joinPreds mf st b ∧
      ldExit st b = ldTransfer (ldEntry st b) (mf.code b) := by
  intro fuel
  induction fuel with
  | zero => intro st₀ st h; simp [ldFix] at h
  | succ fuel ih =>
    intro st₀ st h
    unfold ldFix at h
    cases hr : ldPass mf st₀ with
    | mk st₁ ch =>
      rw [hr] at h
      cases ch with
      | true =>
        simp only [if_true] at h
        exact ih st₁ st h
      | false =>
        simp only [Bool.false_eq_true, if_false, Option.some.injEq] at h
        obtain ⟨hEq, hEqs⟩ := ldPass_fold_false mf.rpo st₀ st₁ hr
        subst h
        intro b hb
        obtain ⟨hE, hX⟩ := hEqs b hb
        constructor
        · rw [← hEq.1 b, hE, joinPreds_congr hEq b]
        · rw [← hEq.2 b, hX, hEq.1 b]

theorem redundantLoads_char {mf : MFun} {st : LdState} {b i : Nat} :
    (b, i) ∈ redundantLoads mf st ↔
      b ∈ mf.rpo ∧ ∃ fi, (mf.code b)[i]? = some (PInstr.uncondLoad fi) ∧
        fi ∈ prefixFact mf st b i := by
  unfold redundantLoads
  rw [List.mem_bind]
  constructor
  · rintro ⟨b₂, hb₂, hmem⟩
    rw [List.mem_filterMap] at hmem
    obtain ⟨ii, hii, hg⟩ := hmem
    obtain ⟨j, ins⟩ := ii
    cases ins with
    | uncondLoad fi =>
      by_cases hf : fi ∈ prefixFact mf st b₂ j
      · have hg₂ : some (b₂, j) = some (b, i) := by
          have hshow : (if fi ∈ prefixFact mf st b₂ j then some (b₂, j) else none) =
              some (b, i) := hg
          rw [if_pos hf] at hshow
          exact hshow
        obtain ⟨h₁, h₂⟩ := Prod.mk.injEq .. ▸ Option.some.inj hg₂
        subst h₁
        subst h₂
        exact ⟨hb₂, fi, List.mk_mem_enum_iff_getElem?.mp hii, hf⟩
      · have hshow : (if fi ∈ prefixFact mf st b₂ j then some (b₂, j) else none) =
            some (b, i) := hg
        rw [if_neg hf] at hshow
        exact absurd hshow (by simp)
    | uncondStore fi => exact absurd hg (by simp)
    | other => exact absurd hg (by simp)
  · rintro ⟨hb, fi, hget, hf⟩
    refine ⟨b, hb, ?_⟩
    rw [List.mem_filterMap]
    refine ⟨(i, PInstr.uncondLoad fi), List.mk_mem_enum_iff_getElem?.mpr hget, ?_⟩
    show (if fi ∈ prefixFact mf st b i then some (b, i) else none) = some (b, i)
    rw [if_pos hf]

/-! ### Claim C6 -/

/-- Claim C6: when the fixed-point loop of `findRedundantLoads`
stabilises, the resulting per-block sets really are a fixed point of the
must-analysis equations — each block's entry set is the intersection of
its predecessors' exit sets (full set seeded, empty at the entry block)
and each exit set is the transfer of its entry set — and an unconditional
load of slot `fi` is marked removable exactly when `fi` is in the
analysis fact holding just before that load (the scratch register is
guaranteed to hold slot `fi`'s value there). -/
theorem claim6_redundant_loads (mf : MFun) (fuel : Nat) (st : LdState)
    (reds : List (Nat × Nat))
    (h : findRedundantLoads mf fuel = some (st, reds)) :
    (∀ b ∈ mf.rpo, ldEntry st b = joinPreds mf st b ∧
      ldExit st b = ldTransfer (ldEntry st b) (mf.code b)) ∧
    (∀ b i, (b, i) ∈ reds ↔ b ∈ mf.rpo ∧ ∃ fi,
      (mf.code b)[i]? = some (PInstr.uncondLoad fi) ∧
        fi ∈ prefixFact mf st b i) := by
  unfold findRedundantLoads at h
  cases hfix : ldFix mf fuel ldInit with
  | none => rw [hfix] at h; simp at h
  | some st₁ =>
    rw [hfix] at h
    simp only [Option.map_some', Option.some.injEq, Prod.mk.injEq] at h
    obtain ⟨h₁, h₂⟩ := h
    subst h₁
    subst h₂
    exact ⟨ldFix_equations fuel ldInit _ hfix, fun b i => redundantLoads_char⟩

def mfW : MFun :=
  { numFIs := 1, rpo := [0, 1],
    code := fun b =>
      if b = 0 then [PInstr.uncondStore 0, PInstr.uncondLoad 0]
      else if b = 1 then [PInstr.uncondLoad 0] else [],
    preds := fun b => if b = 1 then [0] else [] }

def stW6 : LdState := (ldFix mfW 3 ldInit).getD ldInit

def redsW : List (Nat × Nat) := redundantLoads mfW stW6

theorem claim6_witness :
    findRedundantLoads mfW 3 = some (stW6, redsW) ∧
    (ldEntry stW6 1 = joinPreds mfW stW6 1 ∧
      ldExit stW6 1 = ldTransfer (ldEntry stW6 1) (mfW.code 1)) ∧
    ((1, 0) ∈ redsW ↔ 1 ∈ mfW.rpo ∧ ∃ fi,
      (mfW.code 1)[0]? = some (PInstr.uncondLoad fi) ∧
        fi ∈ prefixFact mfW stW6 1 0) := by
  have h := claim6_redundant_loads mfW 3 stW6 redsW (by decide)
  exact ⟨by decide, h.1 1 (by decide), h.2 1 0⟩

/-! ### Claim C7 -/

/-- Claim C7: a run of `RedundantLdStEliminator::process` never erases a
store instruction — the store analysis is disabled, so the erased set is
exactly the registered removable dummies plus the redundant loads; every
store at a position not registered as a dummy is still present in the
block after processing. -/
theorem claim7_no_store_removed (mf : MFun) (fuel : Nat)
    (dummies rem : List (Nat × Nat))
    (h : processRemovables mf fuel dummies = some rem) :
    (∀ b i, (b, i) ∈ rem → (b, i) ∈ dummies ∨
      ∃ fi, (mf.code b)[i]? = some (PInstr.uncondLoad fi)) ∧
    (∀ b i fi, (mf.code b)[i]? = some (PInstr.uncondStore fi) →
      (b, i) ∉ dummies →
      PInstr.uncondStore fi ∈ processBlock rem b (mf.code b)) := by
  unfold processRemovables findRedundantLoads at h
  cases hfix : ldFix mf fuel ldInit with
  | none => rw [hfix] at h; simp at h
  | some st =>
    rw [hfix] at h
    simp only [Option.map_some', Option.some.injEq] at h
    subst h
    constructor
    · intro b i hmem
      rcases List.mem_append.mp hmem with hmem | hmem
      · exact Or.inl hmem
      · obtain ⟨_, fi, hget, _⟩ := redundantLoads_char.mp hmem
        exact Or.inr ⟨fi, hget⟩
    · intro b i fi hget hdum
      have hnotrem : (b, i) ∉ dummies ++ redundantLoads mf st := by
        intro hmem
        rcases List.mem_append.mp hmem with hmem | hmem
        · exact hdum hmem
        · obtain ⟨_, fi₂, hget₂, _⟩ := redundantLoads_char.mp hmem
          rw [hget] at hget₂
          exact PInstr.noConfusion (Option.some.inj hget₂)
      unfold processBlock
      rw [List.mem_filterMap]
      refine ⟨(i, PInstr.uncondStore fi), List.mk_mem_enum_iff_getElem?.mpr hget, ?_⟩
      rw [if_neg hnotrem]

theorem claim7_witness :
    processRemovables mfW 3 [] = some redsW ∧
    (mfW.code 0)[0]? = some (PInstr.uncondStore 0) ∧
    PInstr.uncondStore 0 ∈ processBlock redsW 0 (mfW.code 0) :=
  ⟨by decide, by decide,
   (claim7_no_store_removed mfW 3 [] redsW (by decide)).2 0 0 0
     (by decide) (by decide)⟩

/-! ### The linearizer's loop exit (`LinearizeWalker::exitSubscope`)

Registers are abstracted to the ones the emitted code mentions:
`guardsReg` is the reserved scratch register (`R26`), `prTmp` the reserved
predicate register, `r0` the zero register, and `preg n` any other
predicate register.  `EInstr` mirrors the `BuildMI` calls: `lwcFI`/`lbcFI`
load from a frame index, `swcFI`/`sbcFI` store to one, `subi` subtracts an
immediate, `cmplt` compares two registers producing a predicate, `brCond`
is the conditional branch, `btesti` tests a bit of a register into a
predicate, `bcopy` copies a predicate into a bit of a register, and
`mtsS0`/`mfsS0` move to/from the special register `S0`. -/

inductive Reg where
  | guardsReg : Reg
  | prTmp : Reg
  | r0 : Reg
  | preg : Nat → Reg
deriving DecidableEq, Repr

inductive EInstr where
  | lwcFI : Reg → Int → EInstr
  | lbcFI : Reg → Int → EInstr
  | subi : Reg → Reg → Nat → EInstr
  | cmplt : Reg → Reg → Reg → EInstr
  | swcFI : Int → Reg → EInstr
  | sbcFI : Int → Reg → EInstr
  | brCond : Reg → Nat → EInstr
  | btesti : Reg → Reg → Nat → EInstr
  | bcopy : Reg → Reg → Nat → Reg → EInstr
  | mtsS0 : Reg → EInstr
  | mfsS0 : Reg → EInstr
  | pmov : Reg → Reg → EInstr
  | liImm : Reg → Nat → EInstr
deriving DecidableEq, Repr

/-- Everything `exitSubscope` reads: the scope's flags, depth and header
block number, the header predicates' load locations (`RI.getLoadLocs`)
and registers (`getPredicateRegisters`), the frame-index oracles of
`PatmosMachineFunctionInfo`, the live-out predicate registers, and the
`S0` bit index oracle. -/
structure ExitCtx where
  isTopLevel : Bool
  hasLoopBound : Bool
  depth : Nat
  needsScopeSpill : Bool
  headerMBB : Nat
  headerLoads : List (Nat × Nat)
  predRegs : Nat → Reg
  loopCntFI : Nat → Int
  s0SpillFI : Nat → Int
  excessSpillFI : Nat → Int
  liveouts : List Reg
  s0Index : Reg → Nat

/-- `PatmosSPReduce::insertPredicateLoad`: load the packed guard word and
test the predicate's bit (`getStackLocPair` splits the location into the
word's frame index and the bit position). -/
def insertPredicateLoad (ctx : ExitCtx) (loc : Nat) (target : Reg) :
    List EInstr :=
  [ EInstr.lwcFI Reg.guardsReg (ctx.excessSpillFI (loc / 32)),
    EInstr.btesti target Reg.guardsReg (loc % 32) ]

/-- The header-predicate reloads at the top of the back-edge block. -/
def headerLoadsCode (ctx : ExitCtx) : List EInstr :=
  ctx.headerLoads.bind (fun pl => insertPredicateLoad ctx pl.2 (ctx.predRegs pl.1))

/-- `LinearizeWalker::exitSubscope`: nothing for a top-level scope; for a
loop scope (which must carry a loop bound — the source asserts it) the
back-edge block is the header reloads followed by load counter, decrement
by one, compare against zero into the branch predicate, store the counter
back to the same slot, and the conditional branch to the loop header;
a post-loop block restoring `S0` (with the live-out predicates preserved)
is emitted exactly when the scope needs a scope spill. -/
def exitSubscope (ctx : ExitCtx) : Option (List EInstr × Option (List EInstr)) :=
  if ctx.isTopLevel then none
  else if ctx.hasLoopBound then
    let fi := ctx.loopCntFI (ctx.depth - 1)
    let branch :=
      headerLoadsCode ctx ++
      [ EInstr.lwcFI Reg.guardsReg fi,
        EInstr.subi Reg.guardsReg Reg.guardsReg 1,
        EInstr.cmplt Reg.prTmp Reg.r0 Reg.guardsReg,
        EInstr.swcFI fi Reg.guardsReg,
        EInstr.brCond Reg.prTmp ctx.headerMBB ]
    let post :=
      if ctx.needsScopeSpill then
        some ([EInstr.lbcFI Reg.guardsReg (ctx.s0SpillFI (ctx.depth - 1))] ++
          ctx.liveouts.map
            (fun r => EInstr.bcopy Reg.guardsReg Reg.guardsReg (ctx.s0Index r) r) ++
          [EInstr.mtsS0 Reg.guardsReg])
      else none
    some (branch, post)
  else none

/-! ### Claim C8 -/

/-- Claim C8: whenever `exitSubscope` emits a back-edge block (every
non-top-level loop scope), the instruction sequence after the
header-predicate loads is exactly: load the loop counter from the
per-depth counter slot, decrement it by one, compare it against zero into
the continuation predicate `PRTmp`, store the counter back to the *same*
slot, and branch on that predicate to the loop header; and a postheader
restoring the scope-spilled registers follows exactly when the scope
needs a scope spill. -/
theorem claim8_backedge_sequence (ctx : ExitCtx) (be : List EInstr)
    (post : Option (List EInstr))
    (h : exitSubscope ctx = some (be, post)) :
    ∃ fi, fi = ctx.loopCntFI (ctx.depth - 1) ∧
      be = headerLoadsCode ctx ++
        [ EInstr.lwcFI Reg.guardsReg fi,
          EInstr.subi Reg.guardsReg Reg.guardsReg 1,
          EInstr.cmplt Reg.prTmp Reg.r0 Reg.guardsReg,
          EInstr.swcFI fi Reg.guardsReg,
          EInstr.brCond Reg.prTmp ctx.headerMBB ] ∧
      (post.isSome = true ↔ ctx.needsScopeSpill = true) := by
  unfold exitSubscope at h
  by_cases htop : ctx.isTopLevel = true
  · rw [if_pos htop] at h
    exact absurd h (by simp)
  · rw [if_neg htop] at h
    by_cases hlb : ctx.hasLoopBound = true
    · rw [if_pos hlb] at h
      simp only [Option.some.injEq, Prod.mk.injEq] at h
      obtain ⟨hbe, hpost⟩ := h
      refine ⟨ctx.loopCntFI (ctx.depth - 1), rfl, hbe.symm, ?_⟩
      rw [← hpost]
      by_cases hss : ctx.needsScopeSpill = true
      · simp [if_pos hss, hss]
      · have hss₂ : ctx.needsScopeSpill = false :=
          Bool.not_eq_true _ ▸ Bool.eq_false_iff.mpr hss
        simp [hss₂]
    · rw [if_neg hlb] at h
      exact absurd h (by simp)

def ctxW : ExitCtx :=
  { isTopLevel := false, hasLoopBound := true, depth := 1,
    needsScopeSpill := true, headerMBB := 3, headerLoads := [],
    predRegs := fun _ => Reg.prTmp, loopCntFI := fun n => (n : Int),
    s0SpillFI := fun n => (10 + n : Int), excessSpillFI := fun n => (20 + n : Int),
    liveouts := [], s0Index := fun _ => 0 }

def beW : List EInstr :=
  [ EInstr.lwcFI Reg.guardsReg 0,
    EInstr.subi Reg.guardsReg Reg.guardsReg 1,
    EInstr.cmplt Reg.prTmp Reg.r0 Reg.guardsReg,
    EInstr.swcFI 0 Reg.guardsReg,
    EInstr.brCond Reg.prTmp 3 ]

def postW : List EInstr :=
  [ EInstr.lbcFI Reg.guardsReg 10, EInstr.mtsS0 Reg.guardsReg ]

theorem claim8_witness :
    exitSubscope ctxW = some (beW, some postW) ∧
    ∃ fi, fi = ctxW.loopCntFI (ctxW.depth - 1) ∧
      beW = headerLoadsCode ctxW ++
        [ EInstr.lwcFI Reg.guardsReg fi,
          EInstr.subi Reg.guardsReg Reg.guardsReg 1,
          EInstr.cmplt Reg.prTmp Reg.r0 Reg.guardsReg,
          EInstr.swcFI fi Reg.guardsReg,
          EInstr.brCond Reg.prTmp ctxW.headerMBB ] ∧
      ((some postW).isSome = true ↔ ctxW.needsScopeSpill = true) :=
  ⟨by decide, claim8_backedge_sequence ctxW beW (some postW) (by decide)⟩
